import Mathlib

/-!
A shallow embedding of the TF-IDF engine from `tf_idf.py` and proofs about it.

Python dictionaries are modelled as insertion-ordered association lists
(`Dict α β := List (α × β)`): lookup returns the value of the first matching
key, assignment to an existing key updates it in place (keeping its position),
assignment to a new key appends it.  Machine floats are modelled as elements of
a linear ordered field `V`, with `math.log` abstracted as a parameter
`vlog : V → V` (instantiated at `Real.log` for concrete numeric results).
Python exceptions are modelled by `Option`: `none` is an uncaught exception.
-/

set_option autoImplicit false

namespace TfIdfSpec

/-- A Python dict: an insertion-ordered association list. -/
abbrev Dict (α β : Type) : Type := List (α × β)

section DictDefs

variable {α β γ : Type} [DecidableEq α]

/-- `d[k]` as an option: value at the first occurrence of key `k`. -/
def dget? : Dict α β → α → Option β
  | [], _ => none
  | p :: d, k => if p.1 = k then some p.2 else dget? d k

/-- `d.get(k, v₀)`: lookup with a default. -/
def dgetD (d : Dict α β) (k : α) (v₀ : β) : β :=
  (dget? d k).getD v₀

/-- `d[k] = v`: replace the (first) binding of `k` in place, else append. -/
def dinsert : Dict α β → α → β → Dict α β
  | [], k, v => [(k, v)]
  | p :: d, k, v => if p.1 = k then (k, v) :: d else p :: dinsert d k v

/-- The keys of a dict, in insertion order. -/
def dkeys (d : Dict α β) : List α :=
  d.map Prod.fst

/-- `k in d`. -/
def dmem (d : Dict α β) (k : α) : Bool :=
  (dget? d k).isSome

/-- Sum of the values of a `Nat`-valued dict (`sum(d.values())`). -/
def sumValues (d : Dict α Nat) : Nat :=
  (d.map Prod.snd).sum

end DictDefs

section DictLemmas

variable {α β γ : Type} [DecidableEq α]

@[simp] theorem dget?_nil (k : α) : dget? ([] : Dict α β) k = none := rfl

theorem dget?_cons (p : α × β) (d : Dict α β) (k : α) :
    dget? (p :: d) k = if p.1 = k then some p.2 else dget? d k := rfl

@[simp] theorem dinsert_nil (k : α) (v : β) : dinsert ([] : Dict α β) k v = [(k, v)] := rfl

theorem dinsert_cons (p : α × β) (d : Dict α β) (k : α) (v : β) :
    dinsert (p :: d) k v = if p.1 = k then (k, v) :: d else p :: dinsert d k v := rfl

@[simp] theorem dget?_dinsert_self (d : Dict α β) (k : α) (v : β) :
    dget? (dinsert d k v) k = some v := by
  induction d with
  | nil => simp [dget?]
  | cons p d ih =>
    by_cases h : p.1 = k
    · simp [dinsert_cons, h, dget?_cons]
    · simp [dinsert_cons, h, dget?_cons, ih]

theorem dget?_dinsert_ne (d : Dict α β) (k k' : α) (v : β) (h : k ≠ k') :
    dget? (dinsert d k v) k' = dget? d k' := by
  induction d with
  | nil => simp [dget?, h]
  | cons p d ih =>
    by_cases hp : p.1 = k
    · simp [dinsert_cons, hp, dget?_cons, h]
    · simp [dinsert_cons, hp, dget?_cons, ih]

/-- Re-inserting the value already present leaves the dict unchanged. -/
theorem dinsert_self_of_dget? (d : Dict α β) (k : α) (v : β) (h : dget? d k = some v) :
    dinsert d k v = d := by
  induction d with
  | nil => simp [dget?] at h
  | cons p d ih =>
    by_cases hp : p.1 = k
    · rw [dget?_cons, if_pos hp] at h
      obtain rfl : p.2 = v := by injection h
      rw [dinsert_cons, if_pos hp, ← hp]
    · rw [dget?_cons, if_neg hp] at h
      rw [dinsert_cons, if_neg hp, ih h]

theorem dkeys_cons (p : α × β) (d : Dict α β) : dkeys (p :: d) = p.1 :: dkeys d := rfl

theorem dkeys_dinsert (d : Dict α β) (k : α) (v : β) :
    dkeys (dinsert d k v) = if k ∈ dkeys d then dkeys d else dkeys d ++ [k] := by
  induction d with
  | nil => simp [dkeys]
  | cons p d ih =>
    rw [dinsert_cons]
    by_cases hp : p.1 = k
    · subst hp
      rw [if_pos rfl, dkeys_cons, dkeys_cons, if_pos (List.mem_cons_self _ _)]
    · have hne : k ≠ p.1 := fun h => hp h.symm
      rw [if_neg hp, dkeys_cons, dkeys_cons, ih]
      by_cases hk : k ∈ dkeys d
      · rw [if_pos hk, if_pos (List.mem_cons.mpr (Or.inr hk))]
      · rw [if_neg hk, if_neg (by simp [hne, hk]), List.cons_append]

theorem dkeys_nodup_dinsert (d : Dict α β) (k : α) (v : β) (h : (dkeys d).Nodup) :
    (dkeys (dinsert d k v)).Nodup := by
  rw [dkeys_dinsert]
  by_cases hk : k ∈ dkeys d
  · rw [if_pos hk]
    exact h
  · rw [if_neg hk]
    exact List.Nodup.append h (List.nodup_singleton k)
      (fun x hx hx1 => hk (by rwa [List.mem_singleton.mp hx1] at hx))

theorem dget?_eq_none_iff (d : Dict α β) (k : α) :
    dget? d k = none ↔ k ∉ dkeys d := by
  induction d with
  | nil => simp [dkeys]
  | cons p d ih =>
    by_cases hp : p.1 = k
    · subst hp
      simp [dget?_cons, dkeys]
    · have hne : ¬ k = p.1 := fun h => hp h.symm
      simp [dget?_cons, hp, dkeys, hne, ih]

theorem dget?_isSome_iff (d : Dict α β) (k : α) :
    (dget? d k).isSome ↔ k ∈ dkeys d := by
  rw [← not_iff_not, ← dget?_eq_none_iff]
  cases dget? d k <;> simp

/-- With no duplicate keys, membership determines the lookup. -/
theorem dget?_of_mem_nodup (d : Dict α β) (k : α) (v : β)
    (hmem : (k, v) ∈ d) (hnd : (dkeys d).Nodup) : dget? d k = some v := by
  induction d with
  | nil => simp at hmem
  | cons p d ih =>
    rcases List.mem_cons.mp hmem with h | h
    · rw [dget?_cons, ← h]
      simp
    · have hk : k ∈ dkeys d := List.mem_map.mpr ⟨(k, v), h, rfl⟩
      have hp : p.1 ≠ k := by
        rintro rfl
        exact ((List.nodup_cons.mp (by simpa [dkeys] using hnd)).1 hk).elim
      rw [dget?_cons, if_neg hp]
      exact ih h ((List.nodup_cons.mp (by simpa [dkeys] using hnd)).2)

theorem mem_of_dget?_eq_some (d : Dict α β) (k : α) (v : β) (h : dget? d k = some v) :
    (k, v) ∈ d := by
  induction d with
  | nil => simp [dget?] at h
  | cons p d ih =>
    by_cases hp : p.1 = k
    · rw [dget?_cons, if_pos hp] at h
      obtain rfl : p.2 = v := by injection h
      subst hp
      simp
    · rw [dget?_cons, if_neg hp] at h
      exact List.mem_cons_of_mem _ (ih h)

/-- Lookup in a key-preserving value map. -/
theorem dget?_mapValues (d : Dict α β) (f : α × β → γ) (k : α) :
    dget? (d.map (fun p => (p.1, f p))) k = (dget? d k).map (fun v => f (k, v)) := by
  induction d with
  | nil => simp [dget?]
  | cons p d ih =>
    by_cases hp : p.1 = k
    · subst hp
      simp [dget?_cons]
    · simp [dget?_cons, hp, ih]

@[simp] theorem dkeys_mapValues (d : Dict α β) (f : α × β → γ) :
    dkeys (d.map (fun p => (p.1, f p))) = dkeys d := by
  simp [dkeys, Function.comp]

/-- Lookup in a dict built from a key list by a value function. -/
theorem dget?_ofKeys (ks : List α) (f : α → β) (k : α) :
    dget? (ks.map (fun t => (t, f t))) k = if k ∈ ks then some (f k) else none := by
  induction ks with
  | nil => simp [dget?]
  | cons t ks ih =>
    by_cases ht : t = k
    · subst ht
      simp [dget?_cons]
    · have hne : ¬ k = t := fun h => ht h.symm
      simp [dget?_cons, ht, hne, ih]

theorem sumValues_dinsert_incr (d : Dict α Nat) (k : α) :
    sumValues (dinsert d k (dgetD d k 0 + 1)) = sumValues d + 1 := by
  induction d with
  | nil => simp [sumValues, dgetD, dget?]
  | cons p d ih =>
    by_cases hp : p.1 = k
    · simp [dinsert_cons, hp, dgetD, dget?_cons, sumValues]
      omega
    · simp only [dinsert_cons, if_neg hp, dgetD, dget?_cons, if_neg hp, sumValues,
        List.map_cons, List.sum_cons] at ih ⊢
      omega

end DictLemmas

/-! ### The engine model, translated from `tf_idf.py` -/

/-- A document aggregate: the dict produced by `_new_doc` and `add_document`. -/
structure Doc where
  nr_terms : Nat
  term_count : Dict String Nat
deriving DecidableEq

/-- The engine state: the four instance attributes of class `TfIdf`
(leading underscores dropped). -/
@[ext]
structure TfIdf (V : Type) where
  dataset : Dict String Doc
  tf_idf_results : Dict String (Dict String V)
  results_up_to_date : Bool
  compute_on_add : Bool
deriving DecidableEq

/-- `TfIdf.__init__(compute_on_add)`. -/
def TfIdf.start (V : Type) (compute_on_add : Bool) : TfIdf V :=
  { dataset := [], tf_idf_results := [], results_up_to_date := false,
    compute_on_add := compute_on_add }

/-- `_new_doc`. -/
def new_doc : Doc :=
  { nr_terms := 0, term_count := [] }

/-- `collections.Counter(terms)` as a dict, keyed in first-occurrence order. -/
def counter (terms : List String) : Dict String Nat :=
  terms.foldl (fun d t => dinsert d t (dgetD d t 0 + 1)) []

/-- The key-wise merge
`{t: a.get(t, 0) + b.get(t, 0) for t in set(a) | set(b)}` used by
`add_document` and `_idf`.  Python iterates the key-set union in an
unspecified (hash-based) order; the embedding fixes it as: keys of `a`
in order, then the new keys of `b` in order.  No claim in this
development observes that order. -/
def mergeCounts (a b : Dict String Nat) : Dict String Nat :=
  (dkeys a ++ (dkeys b).filter (fun t => decide (t ∉ dkeys a))).map
    (fun t => (t, dgetD a t 0 + dgetD b t 0))

section Model

variable {V : Type} [LinearOrderedField V]

/-- `set_compute_on_add`: the argument is a `Bool` by typing, so the dynamic
type check of the source cannot fail here and the method stores the state. -/
def set_compute_on_add (e : TfIdf V) (state : Bool) : TfIdf V :=
  { e with compute_on_add := state }

/-- The dict comprehension of `_tf` for one document:
`{t: term_count[t] / nr_terms for t in term_count}`.
It raises `ZeroDivisionError` (modelled `none`) exactly when it executes a
division with `nr_terms == 0`, i.e. when `term_count` is nonempty; over an
empty `term_count` the comprehension performs no division at all. -/
def docTF (doc : Doc) : Option (Dict String V) :=
  if doc.term_count = [] then some []
  else if doc.nr_terms = 0 then none
  else some (doc.term_count.map (fun p => (p.1, (p.2 : V) / (doc.nr_terms : V))))

/-- `_tf`: term frequencies per document, in dataset order. -/
def tf : Dict String Doc → Option (Dict String (Dict String V))
  | [] => some []
  | p :: ds =>
    match docTF p.2, tf ds with
    | some freqs, some rest => some ((p.1, freqs) :: rest)
    | _, _ => none

/-- `dict.fromkeys(term_count, 1)` in `_idf`. -/
def docAppearances (doc : Doc) : Dict String Nat :=
  doc.term_count.map (fun p => (p.1, 1))

/-- The accumulation loop of `_idf`: fold the per-document appearance dicts
with the key-wise merge, starting from the empty dict. -/
def idfCounts (ds : Dict String Doc) : Dict String Nat :=
  ds.foldl (fun acc p => mergeCounts acc (docAppearances p.2)) []

/-- `_idf`: the document-appearance counts mapped through
`-1 * log(count / nr_documents)` where `nr_documents = len(dataset)`. -/
def idf (vlog : V → V) (ds : Dict String Doc) : Dict String V :=
  (idfCounts ds).map
    (fun p => (p.1, (-1 : V) * vlog ((p.2 : V) / (ds.length : V))))

/-- The inner loop of `_compute_results` for a fixed term:
`for document in term_frequencies: if term in term_frequencies[document]: ...`.
When the term is new to the results an empty dict is appended first, then the
entry is written — together `dinsert` at the term of `dinsert` at the doc. -/
def innerLoop (term : String) (idfv : V) :
    Dict String (Dict String V) → Dict String (Dict String V) → Dict String (Dict String V)
  | [], res => res
  | p :: tfs, res =>
    innerLoop term idfv tfs
      (match dget? p.2 term with
       | none => res
       | some tfv => dinsert res term (dinsert (dgetD res term []) p.1 (tfv * idfv)))

/-- The double loop of `_compute_results`:
`for term in inverse_document_frequencies: for document in term_frequencies:`. -/
def computeLoop : Dict String V → Dict String (Dict String V) → Dict String (Dict String V) → Dict String (Dict String V)
  | [], _, res => res
  | q :: idfs, tfs, res => computeLoop idfs tfs (innerLoop q.1 q.2 tfs res)

/-- `_compute_results`.  `none` is the uncaught `ZeroDivisionError` from `_tf`.
Source line 106 returns early when `_results_up_to_date` is False, and line 128
sets the flag to True after computing; the existing `_tf_idf_results` dict is
updated in place, never cleared. -/
def compute_results (vlog : V → V) (e : TfIdf V) : Option (TfIdf V) :=
  if e.results_up_to_date = false then some e
  else
    match tf e.dataset with
    | none => none
    | some tfs =>
      some { e with
        tf_idf_results := computeLoop (idf vlog e.dataset) tfs e.tf_idf_results,
        results_up_to_date := true }

/-- `add_document`: merge the batch counts into the (possibly fresh) document,
set `_results_up_to_date = True` (source line 90), then recompute eagerly when
`compute_on_add` is set. -/
def add_document (vlog : V → V) (e : TfIdf V) (doc_name : String) (doc_terms : List String) : Option (TfIdf V) :=
  let doc_term_dict := counter doc_terms
  let doc := dgetD e.dataset doc_name new_doc
  let doc' : Doc :=
    { term_count := mergeCounts doc.term_count doc_term_dict,
      nr_terms := doc.nr_terms + doc_terms.length }
  let e' : TfIdf V :=
    { e with dataset := dinsert e.dataset doc_name doc', results_up_to_date := true }
  if e'.compute_on_add then compute_results vlog e' else some e'

/-- `_score_term` (only ever called on keys present in the results). -/
def score_term (e : TfIdf V) (term document : String) : V :=
  dgetD (dgetD e.tf_idf_results term []) document 0

/-- The accumulation loop of `score_document` that builds `doc_sums`:
for each distinct query term present in the results, for each document listed
under it, initialize a zero entry if needed and add
`query_count * _score_term(term, document)`. -/
def doc_sums (e : TfIdf V) (doc_term_dict : Dict String Nat) : Dict String V :=
  doc_term_dict.foldl
    (fun sums q =>
      match dget? e.tf_idf_results q.1 with
      | none => sums
      | some docs =>
        docs.foldl
          (fun sums p =>
            let sums0 := if dmem sums p.1 then sums else dinsert sums p.1 0
            dinsert sums0 p.1 (dgetD sums0 p.1 0 + (q.2 : V) * score_term e q.1 p.1))
          sums)
    []

/-- The order of the final sort: by score, highest first. -/
def byScore (p q : String × V) : Prop := q.2 ≤ p.2

instance : DecidableRel (byScore (V := V)) :=
  fun p q => inferInstanceAs (Decidable (q.2 ≤ p.2))

/-- `score_document`: optional lazy recompute, then accumulate and stable-sort
descending (Python's `sorted(..., reverse=True)` is a stable sort, modelled by
insertion sort with the reflexive descending order). -/
def score_document (vlog : V → V) (e : TfIdf V) (doc_terms : List String) : Option (List (String × V) × TfIdf V) :=
  match (if e.compute_on_add = false then compute_results vlog e else some e) with
  | none => none
  | some e' => some (List.insertionSort byScore (doc_sums e' (counter doc_terms)), e')

/-- An exported payload: the two optional keys of the pickled dict. -/
structure Payload (V : Type) where
  results : Option (Dict String (Dict String V))
  dataset : Option (Dict String Doc)
deriving DecidableEq

/-- `export`.  Storage effects are abstracted into three booleans: `path_ok`
(`file_path` truthy), `dir_ok` (parent directory exists or `makedirs`
succeeded), `write_ok` (`open` + `pickle.dump` succeeded).  `none` models an
exception escaping the method — only possible from the recompute step, which
the source runs outside any `try`.  Otherwise the result carries the returned
boolean, the engine state after the call, and the payload written, if any. -/
def exportData (vlog : V → V) (e : TfIdf V) (path_ok dir_ok write_ok include_dataset : Bool) :
    Option (Bool × TfIdf V × Option (Payload V)) :=
  if path_ok = false then some (false, e, none)
  else if dir_ok = false then some (false, e, none)
  else
    match (if e.compute_on_add = false then compute_results vlog e else some e) with
    | none => none
    | some e' =>
      if write_ok then
        some (true, e',
          some { results := some e'.tf_idf_results,
                 dataset := if include_dataset then some e'.dataset else none })
      else some (false, e', none)

/-- `load`.  `path_ok` models the `if not file_path` check; `file` is the
deserialized payload, `none` when the file is missing, unreadable or corrupt
(`open`/`pickle.load` raised inside the `try`, caught by the bare `except`). -/
def load (e : TfIdf V) (path_ok : Bool) (file : Option (Payload V)) : Bool × TfIdf V :=
  if path_ok = false then (false, e)
  else
    match file with
    | none => (false, e)
    | some payload =>
      (true, { e with
        tf_idf_results := payload.results.getD [],
        dataset := payload.dataset.getD [] })

/-- One public mutating call. -/
inductive Op where
  | addDoc (doc_name : String) (doc_terms : List String)
  | setCOA (state : Bool)
deriving DecidableEq

/-- Apply one call to the engine. -/
def applyOp (vlog : V → V) (e : TfIdf V) : Op → Option (TfIdf V)
  | Op.addDoc n ts => add_document vlog e n ts
  | Op.setCOA b => some (set_compute_on_add e b)

/-- Run a sequence of calls. -/
def run (vlog : V → V) : TfIdf V → List Op → Option (TfIdf V)
  | e, [] => some e
  | e, op :: ops => (applyOp vlog e op).bind (fun e' => run vlog e' ops)

/-- Run a sequence of `add_document` calls. -/
def runAdds (vlog : V → V) : TfIdf V → List (String × List String) → Option (TfIdf V)
  | e, [] => some e
  | e, b :: bs => (add_document vlog e b.1 b.2).bind (fun e' => runAdds vlog e' bs)

/-! ### Specification-side notions -/

/-- Lookup in the nested results mapping. -/
def lookup2 (r : Dict String (Dict String V)) (t d : String) : Option V :=
  (dget? r t).bind (fun inner => dget? inner d)

/-- Extensional equality of results mappings (Python dict equality ignores
insertion order). -/
def ResultsEquiv (r₁ r₂ : Dict String (Dict String V)) : Prop :=
  ∀ t d, lookup2 r₁ t d = lookup2 r₂ t d

/-- The full TF-IDF recomputation of a dataset into an empty results dict. -/
def freshResults (vlog : V → V) (ds : Dict String Doc) : Option (Dict String (Dict String V)) :=
  (tf ds).map (fun tfs => computeLoop (idf vlog ds) tfs [])

/-- `(t, d)` is a present pair: document `d` exists and contains term `t`. -/
def presentPair (ds : Dict String Doc) (t d : String) : Prop :=
  ∃ doc, dget? ds d = some doc ∧ t ∈ dkeys doc.term_count

/-- A document dict as Python could have built it: no duplicate term keys. -/
def DocWF (doc : Doc) : Prop := (dkeys doc.term_count).Nodup

/-- A results dict as Python could have built it: no duplicate keys at
either level. -/
def ResultsWF (r : Dict String (Dict String V)) : Prop :=
  (dkeys r).Nodup ∧ ∀ p ∈ r, (dkeys p.2).Nodup

/-- An engine state as Python could have built it. -/
def EngineWF (e : TfIdf V) : Prop :=
  (dkeys e.dataset).Nodup ∧ (∀ p ∈ e.dataset, DocWF p.2) ∧ ResultsWF e.tf_idf_results

/-- A document on which `_tf` cannot divide by zero. -/
def DocOK (doc : Doc) : Prop := doc.term_count ≠ [] → doc.nr_terms ≠ 0

/-- A dataset on which `_tf` cannot divide by zero. -/
def DatasetOK (ds : Dict String Doc) : Prop := ∀ p ∈ ds, DocOK p.2

/-- Number of occurrences of a term in a batch. -/
def occCount (t : String) (ts : List String) : Nat :=
  (ts.filter (fun s => decide (s = t))).length

/-- The batches submitted for one document name, in order. -/
def batchesFor (name : String) (batches : List (String × List String)) : List (List String) :=
  (batches.filter (fun b => decide (b.1 = name))).map Prod.snd

end Model

/-! ### Lemmas about the operations -/

section OpLemmas

variable {V : Type} [LinearOrderedField V]

theorem lookup2_def (r : Dict String (Dict String V)) (t d : String) :
    lookup2 r t d = (dget? r t).bind (fun inner => dget? inner d) := rfl

theorem lookup2_dinsert_ne (r : Dict String (Dict String V)) (term t d : String)
    (X : Dict String V) (h : term ≠ t) :
    lookup2 (dinsert r term X) t d = lookup2 r t d := by
  rw [lookup2_def, lookup2_def, dget?_dinsert_ne r term t X h]

theorem lookup2_dinsert_self (r : Dict String (Dict String V)) (term d : String)
    (X : Dict String V) :
    lookup2 (dinsert r term X) term d = dget? X d := by
  rw [lookup2_def, dget?_dinsert_self]
  rfl

/-- The single update performed inside `innerLoop`, at any other inner key,
preserves a lookup. -/
theorem lookup2_innerStep_other (r : Dict String (Dict String V)) (term k d : String)
    (v : V) (hk : k ≠ d) :
    lookup2 (dinsert r term (dinsert (dgetD r term []) k v)) term d = lookup2 r term d := by
  rw [lookup2_dinsert_self, dget?_dinsert_ne _ k d v hk, lookup2_def, dgetD]
  cases h : dget? r term <;> simp

theorem innerLoop_lookup_ne (term : String) (idfv : V)
    (tfs r : Dict String (Dict String V)) (t d : String) (h : term ≠ t) :
    lookup2 (innerLoop term idfv tfs r) t d = lookup2 r t d := by
  induction tfs generalizing r with
  | nil => rfl
  | cons p tfs ih =>
    rw [innerLoop]
    cases hp : dget? p.2 term with
    | none => simpa [hp] using ih r
    | some tfv => simpa [hp] using (ih _).trans (lookup2_dinsert_ne r term t d _ h)

theorem innerLoop_lookup_notmem (term : String) (idfv : V)
    (tfs r : Dict String (Dict String V)) (d : String) (h : d ∉ dkeys tfs) :
    lookup2 (innerLoop term idfv tfs r) term d = lookup2 r term d := by
  induction tfs generalizing r with
  | nil => rfl
  | cons p tfs ih =>
    have hd : p.1 ≠ d := fun hh => h (by rw [dkeys_cons, hh]; exact List.mem_cons_self d _)
    have hrest : d ∉ dkeys tfs := fun hh => h (by rw [dkeys_cons]; exact List.mem_cons_of_mem _ hh)
    rw [innerLoop]
    cases hp : dget? p.2 term with
    | none => simpa [hp] using ih r hrest
    | some tfv =>
      simpa [hp] using (ih _ hrest).trans (lookup2_innerStep_other r term p.1 d _ hd)

theorem innerLoop_lookup_mem (term : String) (idfv : V)
    (tfs r : Dict String (Dict String V)) (d : String) (freqs : Dict String V)
    (hnd : (dkeys tfs).Nodup) (h : dget? tfs d = some freqs) :
    lookup2 (innerLoop term idfv tfs r) term d =
      match dget? freqs term with
      | some tfv => some (tfv * idfv)
      | none => lookup2 r term d := by
  induction tfs generalizing r with
  | nil => simp [dget?] at h
  | cons p tfs ih =>
    have hnd' : p.1 ∉ dkeys tfs ∧ (dkeys tfs).Nodup := by
      rw [dkeys_cons] at hnd
      exact List.nodup_cons.mp hnd
    by_cases hp : p.1 = d
    · subst hp
      rw [dget?_cons, if_pos rfl] at h
      obtain rfl : p.2 = freqs := by injection h
      rw [innerLoop]
      cases hf : dget? p.2 term with
      | none =>
        exact innerLoop_lookup_notmem term idfv tfs r p.1 hnd'.1
      | some tfv =>
        exact (innerLoop_lookup_notmem term idfv tfs
            (dinsert r term (dinsert (dgetD r term []) p.1 (tfv * idfv))) p.1 hnd'.1).trans
          (by rw [lookup2_dinsert_self, dget?_dinsert_self])
    · rw [dget?_cons, if_neg hp] at h
      rw [innerLoop]
      cases hf : dget? p.2 term with
      | none => exact ih r hnd'.2 h
      | some tfv =>
        cases hg : dget? freqs term with
        | none =>
          exact (ih _ hnd'.2 h).trans
            (by rw [hg]; exact lookup2_innerStep_other r term p.1 d _ hp)
        | some w => exact (ih _ hnd'.2 h).trans (by rw [hg])

theorem computeLoop_lookup_notmem (idfs : Dict String V)
    (tfs r : Dict String (Dict String V)) (t d : String) (h : t ∉ dkeys idfs) :
    lookup2 (computeLoop idfs tfs r) t d = lookup2 r t d := by
  induction idfs generalizing r with
  | nil => rfl
  | cons q idfs ih =>
    have hq : q.1 ≠ t := fun hh => h (by rw [dkeys_cons, hh]; exact List.mem_cons_self t _)
    have hrest : t ∉ dkeys idfs := fun hh => h (by rw [dkeys_cons]; exact List.mem_cons_of_mem _ hh)
    rw [computeLoop]
    exact (ih _ hrest).trans (innerLoop_lookup_ne q.1 q.2 tfs r t d hq)

/-- The full characterization of the nested loop of `_compute_results`:
an entry is written at `(t, d)` exactly when `t` has an IDF value and the
term frequencies of document `d` contain `t`, and then it holds
`TF(t, d) * IDF(t)`; every other entry of the prior results dict is left
untouched. -/
theorem computeLoop_lookup (idfs : Dict String V) (tfs r : Dict String (Dict String V))
    (t d : String) (hidf : (dkeys idfs).Nodup) (htfs : (dkeys tfs).Nodup) :
    lookup2 (computeLoop idfs tfs r) t d =
      match dget? idfs t, (dget? tfs d).bind (fun freqs => dget? freqs t) with
      | some idfv, some tfv => some (tfv * idfv)
      | some _, none => lookup2 r t d
      | none, _ => lookup2 r t d := by
  induction idfs generalizing r with
  | nil => cases hd : dget? tfs d <;> simp [computeLoop, dget?]
  | cons q idfs ih =>
    have hnd' : q.1 ∉ dkeys idfs ∧ (dkeys idfs).Nodup := by
      rw [dkeys_cons] at hidf
      exact List.nodup_cons.mp hidf
    rw [computeLoop]
    by_cases hq : q.1 = t
    · subst hq
      rw [computeLoop_lookup_notmem idfs tfs _ q.1 d hnd'.1, dget?_cons, if_pos rfl]
      cases hd : dget? tfs d with
      | none =>
        exact innerLoop_lookup_notmem q.1 q.2 tfs r d ((dget?_eq_none_iff tfs d).mp hd)
      | some freqs =>
        have h2 := innerLoop_lookup_mem q.1 q.2 tfs r d freqs htfs hd
        cases hf : dget? freqs q.1 with
        | none => rw [hf] at h2; simpa [hf] using h2
        | some tfv => rw [hf] at h2; simpa [hf] using h2
    · rw [ih _ hnd'.2, dget?_cons, if_neg hq]
      have hre := innerLoop_lookup_ne q.1 q.2 tfs r t d hq
      cases ht : dget? idfs t with
      | none => cases hd : dget? tfs d <;> simp [hre]
      | some idfv =>
        cases hd : dget? tfs d with
        | none => simp [hre]
        | some freqs => cases hf : dget? freqs t <;> simp [hre, hf]

/-! Idempotence of the nested loop: re-running it writes back the values
already present. -/

theorem innerLoop_id (term : String) (idfv : V) (tfs r : Dict String (Dict String V))
    (h : ∀ p ∈ tfs, ∀ tfv, dget? p.2 term = some tfv → lookup2 r term p.1 = some (tfv * idfv)) :
    innerLoop term idfv tfs r = r := by
  induction tfs with
  | nil => rfl
  | cons p tfs ih =>
    rw [innerLoop]
    cases hf : dget? p.2 term with
    | none => exact ih (fun q hq tfv hg => h q (List.mem_cons_of_mem _ hq) tfv hg)
    | some tfv =>
      show innerLoop term idfv tfs
          (dinsert r term (dinsert (dgetD r term []) p.1 (tfv * idfv))) = r
      have hl := h p (List.mem_cons_self p tfs) tfv hf
      rw [lookup2_def] at hl
      cases hr : dget? r term with
      | none => rw [hr] at hl; simp at hl
      | some inner =>
        rw [hr] at hl
        have hv : dget? inner p.1 = some (tfv * idfv) := by simpa using hl
        have hgd : dgetD r term [] = inner := by simp [dgetD, hr]
        rw [hgd, dinsert_self_of_dget? inner p.1 _ hv, dinsert_self_of_dget? r term inner hr]
        exact ih (fun q hq tfv' hg => h q (List.mem_cons_of_mem _ hq) tfv' hg)

theorem computeLoop_id (idfs : Dict String V) (tfs r : Dict String (Dict String V))
    (h : ∀ q ∈ idfs, ∀ p ∈ tfs, ∀ tfv, dget? p.2 q.1 = some tfv →
      lookup2 r q.1 p.1 = some (tfv * q.2)) :
    computeLoop idfs tfs r = r := by
  induction idfs with
  | nil => rfl
  | cons q idfs ih =>
    rw [computeLoop,
      innerLoop_id q.1 q.2 tfs r (fun p hp tfv hf => h q (List.mem_cons_self q idfs) p hp tfv hf)]
    exact ih (fun q' hq' => h q' (List.mem_cons_of_mem _ hq'))

/-- Running the double loop a second time over the same tf/idf dicts changes
nothing. -/
theorem computeLoop_twice (idfs : Dict String V) (tfs r : Dict String (Dict String V))
    (hidf : (dkeys idfs).Nodup) (htfs : (dkeys tfs).Nodup) :
    computeLoop idfs tfs (computeLoop idfs tfs r) = computeLoop idfs tfs r := by
  apply computeLoop_id
  intro q hq p hp tfv hf
  have h1 : dget? idfs q.1 = some q.2 :=
    dget?_of_mem_nodup idfs q.1 q.2 (by rw [Prod.mk.eta]; exact hq) hidf
  have h2 : dget? tfs p.1 = some p.2 :=
    dget?_of_mem_nodup tfs p.1 p.2 (by rw [Prod.mk.eta]; exact hp) htfs
  rw [computeLoop_lookup idfs tfs r q.1 p.1 hidf htfs, h1, h2]
  simp [hf]

/-! Facts about `_tf` and `docTF`. -/

theorem tf_get?_eq (ds : Dict String Doc) (tfs : Dict String (Dict String V))
    (h : tf ds = some tfs) (d : String) :
    dget? tfs d = (dget? ds d).bind (fun doc => docTF doc) := by
  induction ds generalizing tfs with
  | nil =>
    obtain rfl : ([] : Dict String (Dict String V)) = tfs := by
      rw [tf] at h
      injection h
    rfl
  | cons p ds ih =>
    rw [tf] at h
    cases hdoc : docTF (V := V) p.2 with
    | none => rw [hdoc] at h; simp at h
    | some freqs =>
      cases hrest : tf (V := V) ds with
      | none => rw [hdoc, hrest] at h; simp at h
      | some rest =>
        rw [hdoc, hrest] at h
        obtain rfl : (p.1, freqs) :: rest = tfs := by injection h
        rw [dget?_cons, dget?_cons]
        by_cases hp : p.1 = d
        · subst hp
          simp [hdoc]
        · simp only [if_neg hp]
          exact ih rest hrest

theorem tf_keys (ds : Dict String Doc) (tfs : Dict String (Dict String V))
    (h : tf ds = some tfs) : dkeys tfs = dkeys ds := by
  induction ds generalizing tfs with
  | nil =>
    obtain rfl : ([] : Dict String (Dict String V)) = tfs := by rw [tf] at h; injection h
    rfl
  | cons p ds ih =>
    rw [tf] at h
    cases hdoc : docTF (V := V) p.2 with
    | none => rw [hdoc] at h; simp at h
    | some freqs =>
      cases hrest : tf (V := V) ds with
      | none => rw [hdoc, hrest] at h; simp at h
      | some rest =>
        rw [hdoc, hrest] at h
        obtain rfl : (p.1, freqs) :: rest = tfs := by injection h
        rw [dkeys_cons, dkeys_cons, ih rest hrest]

theorem docTF_keys (doc : Doc) (freqs : Dict String V) (h : docTF doc = some freqs) :
    dkeys freqs = dkeys doc.term_count := by
  simp only [docTF] at h
  by_cases h1 : doc.term_count = []
  · rw [if_pos h1] at h
    obtain rfl : ([] : Dict String V) = freqs := by injection h
    rw [h1]
    rfl
  · rw [if_neg h1] at h
    by_cases h2 : doc.nr_terms = 0
    · rw [if_pos h2] at h
      simp at h
    · rw [if_neg h2] at h
      obtain rfl : _ = freqs := by injection h
      rw [dkeys_mapValues]

theorem docTF_get? (doc : Doc) (freqs : Dict String V) (h : docTF doc = some freqs) (t : String) :
    dget? freqs t =
      Option.map (fun c : Nat => (c : V) / (doc.nr_terms : V)) (dget? doc.term_count t) := by
  simp only [docTF] at h
  by_cases h1 : doc.term_count = []
  · rw [if_pos h1] at h
    obtain rfl : ([] : Dict String V) = freqs := by injection h
    rw [h1]
    rfl
  · rw [if_neg h1] at h
    by_cases h2 : doc.nr_terms = 0
    · rw [if_pos h2] at h
      simp at h
    · rw [if_neg h2] at h
      obtain rfl : _ = freqs := by injection h
      exact dget?_mapValues doc.term_count
        (fun p => (p.2 : V) / (doc.nr_terms : V)) t

theorem docTF_some_of_ok (doc : Doc) (h : DocOK doc) :
    ∃ freqs, docTF (V := V) doc = some freqs := by
  by_cases h1 : doc.term_count = []
  · exact ⟨[], by simp [docTF, h1]⟩
  · exact ⟨doc.term_count.map (fun p => (p.1, (p.2 : V) / (doc.nr_terms : V))),
      by simp [docTF, h1, h h1]⟩

theorem tf_some_of_ok (ds : Dict String Doc) (h : DatasetOK ds) :
    ∃ tfs, tf (V := V) ds = some tfs := by
  induction ds with
  | nil => exact ⟨[], rfl⟩
  | cons p ds ih =>
    obtain ⟨freqs, hf⟩ := docTF_some_of_ok (V := V) p.2 (h p (List.mem_cons_self p ds))
    obtain ⟨rest, hr⟩ := ih (fun q hq => h q (List.mem_cons_of_mem _ hq))
    exact ⟨(p.1, freqs) :: rest, by rw [tf, hf, hr]⟩

/-! Case analysis of `_compute_results`. -/

theorem compute_results_cases (vlog : V → V) (e e' : TfIdf V)
    (h : compute_results vlog e = some e') :
    (e.results_up_to_date = false ∧ e' = e) ∨
    (e.results_up_to_date = true ∧ e'.results_up_to_date = true ∧
     e'.dataset = e.dataset ∧ e'.compute_on_add = e.compute_on_add ∧
     ∃ tfs, tf e.dataset = some tfs ∧
       e'.tf_idf_results = computeLoop (idf vlog e.dataset) tfs e.tf_idf_results) := by
  simp only [compute_results] at h
  by_cases hf : e.results_up_to_date = false
  · rw [if_pos hf] at h
    obtain rfl : e = e' := by injection h
    exact Or.inl ⟨hf, rfl⟩
  · rw [if_neg hf] at h
    cases htf : tf (V := V) e.dataset with
    | none => rw [htf] at h; simp at h
    | some tfs =>
      rw [htf] at h
      obtain rfl : _ = e' := by injection h
      exact Or.inr ⟨Bool.not_eq_false _ |>.mp hf, rfl, rfl, rfl, tfs, rfl, rfl⟩

theorem compute_results_of_false (vlog : V → V) (e : TfIdf V)
    (h : e.results_up_to_date = false) : compute_results vlog e = some e := by
  simp [compute_results, h]

theorem compute_results_of_true (vlog : V → V) (e : TfIdf V) (tfs : Dict String (Dict String V))
    (h : e.results_up_to_date = true) (htf : tf e.dataset = some tfs) :
    compute_results vlog e = some { e with
      tf_idf_results := computeLoop (idf vlog e.dataset) tfs e.tf_idf_results,
      results_up_to_date := true } := by
  simp [compute_results, h, htf]

end OpLemmas

/-! ### Counting lemmas for the Document Store -/

section CountLemmas

theorem occCount_cons (t s : String) (ts : List String) :
    occCount t (s :: ts) = (if s = t then 1 else 0) + occCount t ts := by
  by_cases h : s = t <;> simp [occCount, List.filter_cons, h] <;> omega

theorem dgetD_dinsert_self {β : Type} (d : Dict String β) (k : String) (v v₀ : β) :
    dgetD (dinsert d k v) k v₀ = v := by
  simp [dgetD]

theorem dgetD_dinsert_ne {β : Type} (d : Dict String β) (k k' : String) (v v₀ : β)
    (h : k ≠ k') : dgetD (dinsert d k v) k' v₀ = dgetD d k' v₀ := by
  simp [dgetD, dget?_dinsert_ne d k k' v h]

theorem counter_aux_getD (ts : List String) (acc : Dict String Nat) (t : String) :
    dgetD (ts.foldl (fun d s => dinsert d s (dgetD d s 0 + 1)) acc) t 0
      = dgetD acc t 0 + occCount t ts := by
  induction ts generalizing acc with
  | nil => simp [occCount]
  | cons s ts ih =>
    rw [List.foldl_cons, ih, occCount_cons]
    by_cases h : s = t
    · subst h
      rw [dgetD_dinsert_self, if_pos rfl]
      omega
    · rw [dgetD_dinsert_ne acc s t _ 0 h, if_neg h]
      omega

/-- `Counter(ts)[t]` (with default 0) counts the occurrences of `t` in `ts`. -/
theorem counter_getD (ts : List String) (t : String) :
    dgetD (counter ts) t 0 = occCount t ts := by
  have := counter_aux_getD ts [] t
  simpa [counter, dgetD] using this

theorem counter_aux_nodup (ts : List String) (acc : Dict String Nat)
    (h : (dkeys acc).Nodup) :
    (dkeys (ts.foldl (fun d s => dinsert d s (dgetD d s 0 + 1)) acc)).Nodup := by
  induction ts generalizing acc with
  | nil => exact h
  | cons s ts ih => exact ih _ (dkeys_nodup_dinsert acc s _ h)

theorem counter_nodup (ts : List String) : (dkeys (counter ts)).Nodup :=
  counter_aux_nodup ts [] (by simp [dkeys])

theorem counter_aux_sum (ts : List String) (acc : Dict String Nat) :
    sumValues (ts.foldl (fun d s => dinsert d s (dgetD d s 0 + 1)) acc)
      = sumValues acc + ts.length := by
  induction ts generalizing acc with
  | nil => rfl
  | cons s ts ih =>
    rw [List.foldl_cons, ih, sumValues_dinsert_incr]
    simp
    omega

/-- The values of `Counter(ts)` sum to `len(ts)`. -/
theorem counter_sum (ts : List String) : sumValues (counter ts) = ts.length := by
  have := counter_aux_sum ts []
  simpa [counter, sumValues] using this

/-! Key-set and lookup facts about the key-wise merge. -/

theorem mem_mergeKeys (a b : Dict String Nat) (t : String) :
    t ∈ dkeys a ++ (dkeys b).filter (fun s => decide (s ∉ dkeys a)) ↔
      t ∈ dkeys a ∨ t ∈ dkeys b := by
  simp only [List.mem_append, List.mem_filter, decide_eq_true_eq]
  tauto

theorem dkeys_ofKeys {β : Type} (ks : List String) (f : String → β) :
    dkeys (ks.map (fun t => (t, f t))) = ks := by
  rw [dkeys, List.map_map]
  exact (List.map_congr_left (fun t _ => rfl)).trans (List.map_id ks)

theorem mergeCounts_get? (a b : Dict String Nat) (t : String) :
    dget? (mergeCounts a b) t =
      if t ∈ dkeys a ∨ t ∈ dkeys b then some (dgetD a t 0 + dgetD b t 0) else none := by
  rw [mergeCounts, dget?_ofKeys]
  by_cases h : t ∈ dkeys a ∨ t ∈ dkeys b
  · rw [if_pos ((mem_mergeKeys a b t).mpr h), if_pos h]
  · rw [if_neg (fun hh => h ((mem_mergeKeys a b t).mp hh)), if_neg h]

theorem dgetD_eq_zero_of_notmem (d : Dict String Nat) (t : String) (h : t ∉ dkeys d) :
    dgetD d t 0 = 0 := by
  rw [dgetD, (dget?_eq_none_iff d t).mpr h]
  rfl

/-- The merged count at any key is the sum of the two counts (0 if absent). -/
theorem mergeCounts_getD (a b : Dict String Nat) (t : String) :
    dgetD (mergeCounts a b) t 0 = dgetD a t 0 + dgetD b t 0 := by
  rw [dgetD, mergeCounts_get?]
  by_cases h : t ∈ dkeys a ∨ t ∈ dkeys b
  · rw [if_pos h]
    rfl
  · rw [if_neg h]
    push_neg at h
    rw [dgetD_eq_zero_of_notmem a t h.1, dgetD_eq_zero_of_notmem b t h.2]
    rfl

theorem mergeCounts_keys (a b : Dict String Nat) :
    dkeys (mergeCounts a b) = dkeys a ++ (dkeys b).filter (fun s => decide (s ∉ dkeys a)) := by
  rw [mergeCounts, dkeys_ofKeys]

theorem mergeCounts_nodup (a b : Dict String Nat)
    (ha : (dkeys a).Nodup) (hb : (dkeys b).Nodup) :
    (dkeys (mergeCounts a b)).Nodup := by
  rw [mergeCounts_keys]
  refine List.Nodup.append ha (hb.filter _) ?_
  intro t ht htf
  have h2 := (List.mem_filter.mp htf).2
  simp only [decide_eq_true_eq] at h2
  exact h2 ht

/-! Sums of values across the merge. -/

theorem sum_map_add_distrib {α : Type} (l : List α) (f g : α → Nat) :
    (l.map (fun x => f x + g x)).sum = (l.map f).sum + (l.map g).sum := by
  induction l with
  | nil => rfl
  | cons x l ih =>
    simp only [List.map_cons, List.sum_cons, ih]
    omega

theorem sum_map_filter_mem_split (l : List String) (X : List String) (f : String → Nat) :
    (l.map f).sum = ((l.filter (fun t => decide (t ∈ X))).map f).sum
      + ((l.filter (fun t => decide (t ∉ X))).map f).sum := by
  induction l with
  | nil => rfl
  | cons x l ih =>
    by_cases h : x ∈ X <;> simp [List.filter_cons, h, ih] <;> omega

theorem sum_getD_over_keys (d : Dict String Nat) (hnd : (dkeys d).Nodup) :
    ((dkeys d).map (fun t => dgetD d t 0)).sum = sumValues d := by
  induction d with
  | nil => rfl
  | cons p d ih =>
    rw [dkeys_cons] at hnd ⊢
    obtain ⟨hp, hnd'⟩ := List.nodup_cons.mp hnd
    rw [List.map_cons, List.sum_cons]
    have h1 : dgetD (p :: d) p.1 0 = p.2 := by simp [dgetD, dget?_cons]
    have h2 : (dkeys d).map (fun t => dgetD (p :: d) t 0)
        = (dkeys d).map (fun t => dgetD d t 0) := by
      apply List.map_congr_left
      intro t ht
      have hne : p.1 ≠ t := fun hh => hp (hh ▸ ht)
      simp [dgetD, dget?_cons, hne]
    rw [h1, h2, ih hnd']
    simp [sumValues]

theorem sumValues_ofKeys (ks : List String) (f : String → Nat) :
    sumValues (ks.map (fun t => (t, f t))) = (ks.map f).sum := by
  rw [sumValues, List.map_map]
  exact congrArg List.sum (List.map_congr_left (fun t _ => rfl))

/-- With duplicate-free keys on both sides, the key-wise merge adds the value
sums: `sum(merge(a, b).values()) = sum(a.values()) + sum(b.values())`. -/
theorem sumValues_mergeCounts (a b : Dict String Nat)
    (ha : (dkeys a).Nodup) (hb : (dkeys b).Nodup) :
    sumValues (mergeCounts a b) = sumValues a + sumValues b := by
  rw [mergeCounts, sumValues_ofKeys, sum_map_add_distrib]
  have hUa : ((dkeys a ++ (dkeys b).filter (fun s => decide (s ∉ dkeys a))).map
      (fun t => dgetD a t 0)).sum = sumValues a := by
    rw [List.map_append, List.sum_append]
    have hz : (((dkeys b).filter (fun s => decide (s ∉ dkeys a))).map
        (fun t => dgetD a t 0)).sum = 0 := by
      apply List.sum_eq_zero
      intro n hn
      obtain ⟨t, ht, rfl⟩ := List.mem_map.mp hn
      exact dgetD_eq_zero_of_notmem a t
        (by simpa using (List.mem_filter.mp ht).2)
    rw [hz, sum_getD_over_keys a ha, Nat.add_zero]
  have hUb : ((dkeys a ++ (dkeys b).filter (fun s => decide (s ∉ dkeys a))).map
      (fun t => dgetD b t 0)).sum = sumValues b := by
    rw [List.map_append, List.sum_append,
      sum_map_filter_mem_split (dkeys a) (dkeys b) (fun t => dgetD b t 0)]
    have hz : (((dkeys a).filter (fun t => decide (t ∉ dkeys b))).map
        (fun t => dgetD b t 0)).sum = 0 := by
      apply List.sum_eq_zero
      intro n hn
      obtain ⟨t, ht, rfl⟩ := List.mem_map.mp hn
      exact dgetD_eq_zero_of_notmem b t
        (by simpa using (List.mem_filter.mp ht).2)
    have hperm : ((dkeys a).filter (fun t => decide (t ∈ dkeys b))).Perm
        ((dkeys b).filter (fun t => decide (t ∈ dkeys a))) := by
      rw [List.perm_ext_iff_of_nodup (ha.filter _) (hb.filter _)]
      intro t
      simp only [List.mem_filter, decide_eq_true_eq]
      tauto
    have hswap := (hperm.map (fun t => dgetD b t 0)).sum_eq
    have hsplit := sum_map_filter_mem_split (dkeys b) (dkeys a) (fun t => dgetD b t 0)
    rw [sum_getD_over_keys b hb] at hsplit
    omega
  rw [hUa, hUb]

end CountLemmas

/-! ### Key-set facts about `_idf` -/

section IdfLemmas

variable {V : Type} [LinearOrderedField V]

theorem mem_mergeCounts_keys (a b : Dict String Nat) (t : String) :
    t ∈ dkeys (mergeCounts a b) ↔ t ∈ dkeys a ∨ t ∈ dkeys b := by
  rw [mergeCounts_keys]
  exact mem_mergeKeys a b t

theorem docAppearances_keys (doc : Doc) :
    dkeys (docAppearances doc) = dkeys doc.term_count := by
  rw [docAppearances]
  exact dkeys_mapValues doc.term_count (fun _ => 1)

theorem idfCounts_aux_mem (ds : Dict String Doc) (acc : Dict String Nat) (t : String) :
    t ∈ dkeys (ds.foldl (fun acc p => mergeCounts acc (docAppearances p.2)) acc) ↔
      t ∈ dkeys acc ∨ ∃ p ∈ ds, t ∈ dkeys p.2.term_count := by
  induction ds generalizing acc with
  | nil => simp
  | cons p ds ih =>
    rw [List.foldl_cons, ih, mem_mergeCounts_keys, docAppearances_keys]
    constructor
    · rintro ((h | h) | ⟨q, hq, hqt⟩)
      · exact Or.inl h
      · exact Or.inr ⟨p, List.mem_cons_self p ds, h⟩
      · exact Or.inr ⟨q, List.mem_cons_of_mem _ hq, hqt⟩
    · rintro (h | ⟨q, hq, hqt⟩)
      · exact Or.inl (Or.inl h)
      · rcases List.mem_cons.mp hq with rfl | hq'
        · exact Or.inl (Or.inr hqt)
        · exact Or.inr ⟨q, hq', hqt⟩

theorem idfCounts_mem (ds : Dict String Doc) (t : String) :
    t ∈ dkeys (idfCounts ds) ↔ ∃ p ∈ ds, t ∈ dkeys p.2.term_count := by
  have h := idfCounts_aux_mem ds [] t
  rw [idfCounts]
  rw [h]
  simp [dkeys]

theorem idfCounts_aux_nodup (ds : Dict String Doc) (acc : Dict String Nat)
    (hds : ∀ p ∈ ds, DocWF p.2) (hacc : (dkeys acc).Nodup) :
    (dkeys (ds.foldl (fun acc p => mergeCounts acc (docAppearances p.2)) acc)).Nodup := by
  induction ds generalizing acc with
  | nil => exact hacc
  | cons p ds ih =>
    rw [List.foldl_cons]
    refine ih _ (fun q hq => hds q (List.mem_cons_of_mem _ hq)) ?_
    refine mergeCounts_nodup acc _ hacc ?_
    rw [docAppearances_keys]
    exact hds p (List.mem_cons_self p ds)

theorem idfCounts_nodup (ds : Dict String Doc) (h : ∀ p ∈ ds, DocWF p.2) :
    (dkeys (idfCounts ds)).Nodup :=
  idfCounts_aux_nodup ds [] h (by simp [dkeys])

theorem idf_keys (vlog : V → V) (ds : Dict String Doc) :
    dkeys (idf vlog ds) = dkeys (idfCounts ds) := by
  rw [idf]
  exact dkeys_mapValues (idfCounts ds) _

theorem idf_nodup (vlog : V → V) (ds : Dict String Doc) (h : ∀ p ∈ ds, DocWF p.2) :
    (dkeys (idf vlog ds)).Nodup := by
  rw [idf_keys]
  exact idfCounts_nodup ds h

theorem idf_mem (vlog : V → V) (ds : Dict String Doc) (t : String) :
    t ∈ dkeys (idf vlog ds) ↔ ∃ p ∈ ds, t ∈ dkeys p.2.term_count := by
  rw [idf_keys]
  exact idfCounts_mem ds t

end IdfLemmas

/-! ### Well-formedness is preserved by the compute loop -/

section WFLemmas

variable {V : Type} [LinearOrderedField V]

theorem mem_dinsert {α β : Type} [DecidableEq α] (d : Dict α β) (k : α) (v : β)
    (q : α × β) (h : q ∈ dinsert d k v) : q ∈ d ∨ q = (k, v) := by
  induction d with
  | nil => simpa [dinsert] using h
  | cons p d ih =>
    rw [dinsert_cons] at h
    by_cases hp : p.1 = k
    · rw [if_pos hp] at h
      rcases List.mem_cons.mp h with rfl | h'
      · exact Or.inr rfl
      · exact Or.inl (List.mem_cons_of_mem _ h')
    · rw [if_neg hp] at h
      rcases List.mem_cons.mp h with rfl | h'
      · exact Or.inl (List.mem_cons_self _ _)
      · rcases ih h' with h'' | h''
        · exact Or.inl (List.mem_cons_of_mem _ h'')
        · exact Or.inr h''

theorem ResultsWF_innerStep (r : Dict String (Dict String V)) (term doc : String) (v : V)
    (h : ResultsWF r) :
    ResultsWF (dinsert r term (dinsert (dgetD r term []) doc v)) := by
  refine ⟨dkeys_nodup_dinsert _ _ _ h.1, ?_⟩
  intro p hp
  rcases mem_dinsert _ _ _ p hp with h1 | h1
  · exact h.2 p h1
  · subst h1
    refine dkeys_nodup_dinsert _ _ _ ?_
    rw [dgetD]
    cases hr : dget? r term with
    | none => simp [dkeys]
    | some inner =>
      simpa using h.2 (term, inner) (mem_of_dget?_eq_some r term inner hr)

theorem ResultsWF_innerLoop (term : String) (idfv : V)
    (tfs r : Dict String (Dict String V)) (h : ResultsWF r) :
    ResultsWF (innerLoop term idfv tfs r) := by
  induction tfs generalizing r with
  | nil => exact h
  | cons p tfs ih =>
    rw [innerLoop]
    cases hf : dget? p.2 term with
    | none => exact ih r h
    | some tfv => exact ih _ (ResultsWF_innerStep r term p.1 (tfv * idfv) h)

theorem ResultsWF_computeLoop (idfs : Dict String V)
    (tfs r : Dict String (Dict String V)) (h : ResultsWF r) :
    ResultsWF (computeLoop idfs tfs r) := by
  induction idfs generalizing r with
  | nil => exact h
  | cons q idfs ih =>
    rw [computeLoop]
    exact ih _ (ResultsWF_innerLoop q.1 q.2 tfs r h)

end WFLemmas

/-! ### The recompute step produces the fresh results, plus leftovers -/

section ComputeFresh

variable {V : Type} [LinearOrderedField V]

/-- `a` if present, else `b`: how a recomputation overlays the prior results. -/
def firstSome {α : Type} (a b : Option α) : Option α :=
  match a with
  | some v => some v
  | none => b

/-- If a term is present in a document of the dataset, then the bind of the
term frequencies is defined there (given `tf` succeeded on the dataset member). -/
theorem present_defined (ds : Dict String Doc) (tfs : Dict String (Dict String V))
    (htf : tf ds = some tfs) (t d : String) (doc : Doc)
    (hd : dget? ds d = some doc) (ht : t ∈ dkeys doc.term_count) :
    ∃ freqs tfv, dget? tfs d = some freqs ∧ dget? freqs t = some tfv := by
  have h1 : dget? tfs d = (docTF doc : Option (Dict String V)) := by
    rw [tf_get?_eq ds tfs htf d, hd]
    rfl
  cases hdoc : (docTF doc : Option (Dict String V)) with
  | none =>
    exfalso
    have hds : d ∈ dkeys ds := (dget?_isSome_iff ds d).mp (by rw [hd]; rfl)
    have : d ∈ dkeys tfs := by rw [tf_keys ds tfs htf]; exact hds
    have := (dget?_isSome_iff tfs d).mpr this
    rw [h1, hdoc] at this
    simp at this
  | some freqs =>
    have h2 : dget? freqs t =
        Option.map (fun c : Nat => (c : V) / (doc.nr_terms : V)) (dget? doc.term_count t) :=
      docTF_get? doc freqs hdoc t
    have h3 : (dget? doc.term_count t).isSome := (dget?_isSome_iff _ t).mpr ht
    cases hc : dget? doc.term_count t with
    | none => rw [hc] at h3; simp at h3
    | some c =>
      exact ⟨freqs, (c : V) / (doc.nr_terms : V), by rw [h1, hdoc], by rw [h2, hc]; rfl⟩

/-- The main content of a recomputation, for a state whose results dict only
holds entries at present pairs: afterwards the results are extensionally the
fresh recomputation of the dataset; in general the fresh value wins where it
exists and prior entries survive elsewhere.  Also: boundedness and
well-formedness of the results are maintained. -/
theorem compute_results_fresh (vlog : V → V) (e e' : TfIdf V)
    (hwfds : (dkeys e.dataset).Nodup) (hwfdocs : ∀ p ∈ e.dataset, DocWF p.2)
    (hwfres : ResultsWF e.tf_idf_results)
    (hflag : e.results_up_to_date = true)
    (h : compute_results vlog e = some e') :
    ∃ fr, freshResults vlog e.dataset = some fr ∧
      (∀ t d, lookup2 e'.tf_idf_results t d =
        firstSome (lookup2 fr t d) (lookup2 e.tf_idf_results t d)) ∧
      ResultsWF e'.tf_idf_results ∧
      (∀ t d, lookup2 fr t d ≠ none → presentPair e.dataset t d) ∧
      ((∀ t d, lookup2 e.tf_idf_results t d ≠ none → presentPair e.dataset t d) →
        ResultsEquiv e'.tf_idf_results fr) := by
  rcases compute_results_cases vlog e e' h with ⟨hf, _⟩ | ⟨_, _, _, _, tfs, htf, hres⟩
  · rw [hflag] at hf
    cases hf
  · have hfr : freshResults vlog e.dataset = some (computeLoop (idf vlog e.dataset) tfs []) := by
      rw [freshResults, htf]
      rfl
    have hnodtf : (dkeys tfs).Nodup := by rw [tf_keys _ tfs htf]; exact hwfds
    have hnodidf := idf_nodup vlog e.dataset hwfdocs
    refine ⟨computeLoop (idf vlog e.dataset) tfs [], hfr, ?_, ?_, ?_, ?_⟩
    · intro t d
      rw [hres, computeLoop_lookup _ tfs _ t d hnodidf hnodtf,
        computeLoop_lookup _ tfs _ t d hnodidf hnodtf]
      cases hi : dget? (idf vlog e.dataset) t with
      | none => cases hb : (dget? tfs d).bind (fun freqs => dget? freqs t) <;> rfl
      | some idfv =>
        cases hb : (dget? tfs d).bind (fun freqs => dget? freqs t) with
        | none => rfl
        | some tfv => rfl
    · rw [hres]
      exact ResultsWF_computeLoop _ tfs _ hwfres
    · intro t d hne
      rw [computeLoop_lookup _ tfs _ t d hnodidf hnodtf] at hne
      cases hi : dget? (idf vlog e.dataset) t with
      | none => rw [hi] at hne; simp [lookup2, dget?] at hne
      | some idfv =>
        rw [hi] at hne
        cases hb : (dget? tfs d).bind (fun freqs => dget? freqs t) with
        | none => rw [hb] at hne; simp [lookup2, dget?] at hne
        | some tfv =>
          obtain ⟨freqs, hfq, hft⟩ := Option.bind_eq_some.mp hb
          rw [tf_get?_eq e.dataset tfs htf d] at hfq
          obtain ⟨doc, hdd, hdoc⟩ := Option.bind_eq_some.mp hfq
          have hmap := docTF_get? doc freqs hdoc t
          rw [hft] at hmap
          cases hc : dget? doc.term_count t with
          | none => rw [hc] at hmap; simp at hmap
          | some c =>
            exact ⟨doc, hdd, (dget?_isSome_iff _ t).mp (by rw [hc]; rfl)⟩
    · intro hbound t d
      rw [hres, computeLoop_lookup _ tfs _ t d hnodidf hnodtf,
        computeLoop_lookup _ tfs _ t d hnodidf hnodtf]
      cases hi : dget? (idf vlog e.dataset) t with
      | none =>
        have hz : lookup2 e.tf_idf_results t d = none := by
          by_contra hz
          obtain ⟨doc, hdd, htt⟩ := hbound t d hz
          have hm : t ∈ dkeys (idf vlog e.dataset) :=
            (idf_mem vlog e.dataset t).mpr
              ⟨(d, doc), mem_of_dget?_eq_some _ d doc hdd, htt⟩
          have hs := (dget?_isSome_iff _ t).mpr hm
          rw [hi] at hs
          simp at hs
        show lookup2 e.tf_idf_results t d = lookup2 [] t d
        rw [hz]
        rfl
      | some idfv =>
        cases hb : (dget? tfs d).bind (fun freqs => dget? freqs t) with
        | none =>
          show lookup2 e.tf_idf_results t d = lookup2 [] t d
          by_cases hz : lookup2 e.tf_idf_results t d = none
          · rw [hz]; rfl
          · exfalso
            obtain ⟨doc, hdd, htt⟩ := hbound t d hz
            obtain ⟨freqs, tfv, hfq, hft⟩ := present_defined e.dataset tfs htf t d doc hdd htt
            rw [hfq] at hb
            have hcon : dget? freqs t = none := by simpa using hb
            rw [hft] at hcon
            simp at hcon
        | some tfv => rfl

end ComputeFresh

/-! ### The reachable-state invariant -/

section Invariant

variable {V : Type} [LinearOrderedField V]

/-- Invariant of every engine state reachable by `add_document` calls from a
freshly constructed engine. -/
structure Inv (vlog : V → V) (e : TfIdf V) : Prop where
  wf_ds : (dkeys e.dataset).Nodup
  wf_docs : ∀ p ∈ e.dataset, DocWF p.2
  wf_res : ResultsWF e.tf_idf_results
  sums : ∀ p ∈ e.dataset,
    p.2.nr_terms = sumValues p.2.term_count ∧ ∀ q ∈ p.2.term_count, 1 ≤ q.2
  bounded : ∀ t d, lookup2 e.tf_idf_results t d ≠ none → presentPair e.dataset t d
  flag_empty : e.results_up_to_date = false → e.dataset = [] ∧ e.tf_idf_results = []
  current : e.compute_on_add = true →
    ∃ fr, freshResults vlog e.dataset = some fr ∧ ResultsEquiv e.tf_idf_results fr

theorem DatasetOK_of_sums (ds : Dict String Doc)
    (h : ∀ p ∈ ds, p.2.nr_terms = sumValues p.2.term_count ∧ ∀ q ∈ p.2.term_count, 1 ≤ q.2) :
    DatasetOK ds := by
  intro p hp htc
  obtain ⟨h1, h2⟩ := h p hp
  cases hc : p.2.term_count with
  | nil => exact absurd hc htc
  | cons q rest =>
    have hq : 1 ≤ q.2 := h2 q (by rw [hc]; exact List.mem_cons_self q rest)
    rw [hc] at h1
    have hsum : sumValues (q :: rest) = q.2 + (rest.map Prod.snd).sum := by simp [sumValues]
    omega

theorem counter_aux_pos (ts : List String) (acc : Dict String Nat)
    (h : ∀ q ∈ acc, 1 ≤ q.2) :
    ∀ q ∈ ts.foldl (fun d s => dinsert d s (dgetD d s 0 + 1)) acc, 1 ≤ q.2 := by
  induction ts generalizing acc with
  | nil => exact h
  | cons s ts ih =>
    rw [List.foldl_cons]
    refine ih _ ?_
    intro q hq
    rcases mem_dinsert acc s (dgetD acc s 0 + 1) q hq with h1 | h1
    · exact h q h1
    · rw [h1]
      omega

theorem counter_pos (ts : List String) : ∀ q ∈ counter ts, 1 ≤ q.2 :=
  counter_aux_pos ts [] (by intro q hq; simp at hq)

theorem mergeCounts_pos (a b : Dict String Nat)
    (ha : ∀ q ∈ a, 1 ≤ q.2) (hb : ∀ q ∈ b, 1 ≤ q.2) :
    ∀ q ∈ mergeCounts a b, 1 ≤ q.2 := by
  intro q hq
  rw [mergeCounts] at hq
  obtain ⟨t, ht, rfl⟩ := List.mem_map.mp hq
  rcases (mem_mergeKeys a b t).mp ht with h | h
  · have hs := (dget?_isSome_iff a t).mpr h
    cases hv : dget? a t with
    | none => rw [hv] at hs; simp at hs
    | some v =>
      have h1 := ha (t, v) (mem_of_dget?_eq_some a t v hv)
      have h2 : dgetD a t 0 = v := by simp [dgetD, hv]
      simp only [h2]
      simp at h1
      omega
  · have hs := (dget?_isSome_iff b t).mpr h
    cases hv : dget? b t with
    | none => rw [hv] at hs; simp at hs
    | some v =>
      have h1 := hb (t, v) (mem_of_dget?_eq_some b t v hv)
      have h2 : dgetD b t 0 = v := by simp [dgetD, hv]
      simp only [h2]
      simp at h1
      omega

theorem dgetD_doc_cases (ds : Dict String Doc) (name : String) :
    (∃ doc, (name, doc) ∈ ds ∧ dgetD ds name new_doc = doc) ∨
      dgetD ds name new_doc = new_doc := by
  cases h : dget? ds name with
  | none => exact Or.inr (by rw [dgetD, h]; rfl)
  | some doc =>
    exact Or.inl ⟨doc, mem_of_dget?_eq_some _ _ _ h, by rw [dgetD, h]; rfl⟩

/-- The document written back by `add_document`. -/
def mergedDoc (e : TfIdf V) (name : String) (ts : List String) : Doc :=
  { term_count := mergeCounts (dgetD e.dataset name new_doc).term_count (counter ts),
    nr_terms := (dgetD e.dataset name new_doc).nr_terms + ts.length }

/-- The engine state after the dataset update of `add_document`, before any
eager recompute. -/
def addState (e : TfIdf V) (name : String) (ts : List String) : TfIdf V :=
  { e with
    dataset := dinsert e.dataset name (mergedDoc e name ts),
    results_up_to_date := true }

theorem add_document_eq (vlog : V → V) (e : TfIdf V) (name : String) (ts : List String) :
    add_document vlog e name ts =
      (if e.compute_on_add = true then compute_results vlog (addState e name ts)
       else some (addState e name ts)) := rfl

theorem presentPair_addState (e : TfIdf V) (name : String) (ts : List String)
    (t d : String) (h : presentPair e.dataset t d) :
    presentPair (addState e name ts).dataset t d := by
  obtain ⟨doc, hd, ht⟩ := h
  show presentPair (dinsert e.dataset name (mergedDoc e name ts)) t d
  by_cases hn : name = d
  · subst hn
    refine ⟨mergedDoc e name ts, dget?_dinsert_self e.dataset name _, ?_⟩
    have hdoc : dgetD e.dataset name new_doc = doc := by rw [dgetD, hd]; rfl
    refine (mem_mergeCounts_keys _ _ t).mpr (Or.inl ?_)
    rw [hdoc]
    exact ht
  · exact ⟨doc, by rw [dget?_dinsert_ne e.dataset name d _ hn]; exact hd, ht⟩

/-- All invariant fields except `current` hold for the pre-recompute state of
an add. -/
theorem Inv_addState_pre (vlog : V → V) (e : TfIdf V) (name : String) (ts : List String)
    (hInv : Inv vlog e) :
    (dkeys (addState e name ts).dataset).Nodup ∧
    (∀ p ∈ (addState e name ts).dataset, DocWF p.2) ∧
    ResultsWF (addState e name ts).tf_idf_results ∧
    (∀ p ∈ (addState e name ts).dataset,
      p.2.nr_terms = sumValues p.2.term_count ∧ ∀ q ∈ p.2.term_count, 1 ≤ q.2) ∧
    (∀ t d, lookup2 (addState e name ts).tf_idf_results t d ≠ none →
      presentPair (addState e name ts).dataset t d) := by
  have holdWF : DocWF (dgetD e.dataset name new_doc) := by
    rcases dgetD_doc_cases e.dataset name with ⟨doc, hmem, heq⟩ | heq
    · rw [heq]
      exact hInv.wf_docs (name, doc) hmem
    · rw [heq]
      exact List.nodup_nil
  have holdSums : (dgetD e.dataset name new_doc).nr_terms
      = sumValues (dgetD e.dataset name new_doc).term_count ∧
      ∀ q ∈ (dgetD e.dataset name new_doc).term_count, 1 ≤ q.2 := by
    rcases dgetD_doc_cases e.dataset name with ⟨doc, hmem, heq⟩ | heq
    · rw [heq]
      exact hInv.sums (name, doc) hmem
    · rw [heq]
      exact ⟨rfl, by intro q hq; simp [new_doc] at hq⟩
  have hmergedWF : DocWF (mergedDoc e name ts) :=
    mergeCounts_nodup _ _ holdWF (counter_nodup ts)
  have hmergedSums : (mergedDoc e name ts).nr_terms
      = sumValues (mergedDoc e name ts).term_count := by
    show (dgetD e.dataset name new_doc).nr_terms + ts.length
      = sumValues (mergeCounts (dgetD e.dataset name new_doc).term_count (counter ts))
    rw [sumValues_mergeCounts _ _ holdWF (counter_nodup ts), counter_sum, holdSums.1]
  have hmergedPos : ∀ q ∈ (mergedDoc e name ts).term_count, 1 ≤ q.2 :=
    mergeCounts_pos _ _ holdSums.2 (counter_pos ts)
  refine ⟨dkeys_nodup_dinsert _ _ _ hInv.wf_ds, ?_, hInv.wf_res, ?_, ?_⟩
  · intro p hp
    rcases mem_dinsert _ _ _ p hp with h1 | h1
    · exact hInv.wf_docs p h1
    · rw [h1]
      exact hmergedWF
  · intro p hp
    rcases mem_dinsert _ _ _ p hp with h1 | h1
    · exact hInv.sums p h1
    · rw [h1]
      exact ⟨hmergedSums, hmergedPos⟩
  · intro t d hne
    exact presentPair_addState e name ts t d (hInv.bounded t d hne)

/-- `add_document` preserves the invariant. -/
theorem Inv_add (vlog : V → V) (e e₁ : TfIdf V) (name : String) (ts : List String)
    (hInv : Inv vlog e) (h : add_document vlog e name ts = some e₁) : Inv vlog e₁ := by
  obtain ⟨hwds, hwdocs, hwres, hsums, hbound⟩ := Inv_addState_pre vlog e name ts hInv
  rw [add_document_eq] at h
  by_cases hc : e.compute_on_add = true
  · rw [if_pos hc] at h
    obtain ⟨fr, hfr, hoverlay, hwfres', hfrbound, hequiv⟩ :=
      compute_results_fresh vlog (addState e name ts) e₁ hwds hwdocs hwres rfl h
    obtain ⟨hflag1, hflag2, hds, hcoa, _⟩ :=
      (compute_results_cases vlog _ e₁ h).resolve_left (by intro ⟨hx, _⟩; cases hx)
    refine ⟨?_, ?_, hwfres', ?_, ?_, ?_, ?_⟩
    · rw [hds]
      exact hwds
    · rw [hds]
      exact hwdocs
    · rw [hds]
      exact hsums
    · intro t d hne
      rw [hds]
      rw [hoverlay t d] at hne
      cases hf : lookup2 fr t d with
      | some v => exact hfrbound t d (by rw [hf]; simp)
      | none =>
        rw [hf] at hne
        exact hbound t d hne
    · intro hcontra
      rw [hflag2] at hcontra
      cases hcontra
    · intro _
      refine ⟨fr, by rw [hds]; exact hfr, hequiv hbound⟩
  · rw [if_neg hc] at h
    obtain rfl : addState e name ts = e₁ := by injection h
    refine ⟨hwds, hwdocs, hwres, hsums, hbound, ?_, ?_⟩
    · intro hcontra
      cases hcontra
    · intro hcontra
      exact absurd hcontra hc

/-- The invariant holds for a freshly constructed engine. -/
theorem Inv_start (vlog : V → V) (c : Bool) : Inv vlog (TfIdf.start V c) := by
  refine ⟨List.nodup_nil, ?_, ⟨List.nodup_nil, ?_⟩, ?_, ?_, ?_, ?_⟩
  · intro p hp
    simp [TfIdf.start] at hp
  · intro p hp
    simp [TfIdf.start] at hp
  · intro p hp
    simp [TfIdf.start] at hp
  · intro t d hne
    simp [TfIdf.start, lookup2, dget?] at hne
  · intro _
    exact ⟨rfl, rfl⟩
  · intro _
    exact ⟨[], rfl, fun t d => rfl⟩

/-- The invariant holds after any sequence of `add_document` calls. -/
theorem Inv_runAdds (vlog : V → V) (e e' : TfIdf V)
    (batches : List (String × List String)) (hInv : Inv vlog e)
    (h : runAdds vlog e batches = some e') : Inv vlog e' := by
  induction batches generalizing e with
  | nil =>
    rw [runAdds] at h
    obtain rfl : e = e' := by injection h
    exact hInv
  | cons b bs ih =>
    rw [runAdds] at h
    cases hadd : add_document vlog e b.1 b.2 with
    | none => rw [hadd] at h; simp at h
    | some e₁ =>
      rw [hadd] at h
      exact ih e₁ (Inv_add vlog e e₁ b.1 b.2 hInv hadd) h

end Invariant

/-! ### Further helper lemmas -/

section MoreHelpers

variable {V : Type} [LinearOrderedField V]

/-- A placeholder logarithm used to instantiate concrete rational-valued
engines in examples. -/
def zeroLog : ℚ → ℚ := fun _ => 0

/-- On a dataset without the zero-division edge case, `_compute_results`
never raises. -/
theorem compute_results_total (vlog : V → V) (e : TfIdf V) (hds : DatasetOK e.dataset) :
    ∃ e₁, compute_results vlog e = some e₁ := by
  by_cases hf : e.results_up_to_date = false
  · exact ⟨e, compute_results_of_false vlog e hf⟩
  · obtain ⟨tfs, htf⟩ := tf_some_of_ok (V := V) e.dataset hds
    exact ⟨_, compute_results_of_true vlog e tfs ((Bool.not_eq_false _).mp hf) htf⟩

/-- Unfold `export` on the result of the conditional recompute, when the path
and directory checks pass. -/
theorem exportData_eq (vlog : V → V) (e e₁ : TfIdf V) (w i : Bool)
    (h : (if e.compute_on_add = false then compute_results vlog e else some e) = some e₁) :
    exportData vlog e true true w i =
      (if w = true then
        some (true, e₁,
          some { results := some e₁.tf_idf_results,
                 dataset := if i then some e₁.dataset else none })
       else some (false, e₁, none)) := by
  rw [exportData, if_neg (by simp : ¬(true : Bool) = false),
    if_neg (by simp : ¬(true : Bool) = false), h]

theorem exportData_none (vlog : V → V) (e : TfIdf V) (w i : Bool)
    (h : (if e.compute_on_add = false then compute_results vlog e else some e) = none) :
    exportData vlog e true true w i = none := by
  rw [exportData, if_neg (by simp : ¬(true : Bool) = false),
    if_neg (by simp : ¬(true : Bool) = false), h]

/-- Unfold `score_document` on the result of the conditional recompute. -/
theorem score_document_eq (vlog : V → V) (e e₁ : TfIdf V) (q : List String)
    (h : (if e.compute_on_add = false then compute_results vlog e else some e) = some e₁) :
    score_document vlog e q
      = some (List.insertionSort byScore (doc_sums e₁ (counter q)), e₁) := by
  rw [score_document, h]

theorem score_document_none (vlog : V → V) (e : TfIdf V) (q : List String)
    (h : (if e.compute_on_add = false then compute_results vlog e else some e) = none) :
    score_document vlog e q = none := by
  rw [score_document, h]

end MoreHelpers

/-! ### The claims -/

/-- C10: `score_document` never modifies the dataset: for every engine state
and every query term list, the dataset mapping — hence every document's
`term_count` and `nr_terms` — is identical before and after the call, even
when scoring triggers a recomputation, which may update only
`tf_idf_results` and the freshness flag (`compute_on_add` is also untouched). -/
theorem C10_score_frame {V : Type} [LinearOrderedField V] (vlog : V → V)
    (e : TfIdf V) (q : List String) (out : List (String × V)) (e' : TfIdf V)
    (h : score_document vlog e q = some (out, e')) :
    e'.dataset = e.dataset ∧ e'.compute_on_add = e.compute_on_add := by
  rw [score_document] at h
  by_cases hc : e.compute_on_add = false
  · rw [if_pos hc] at h
    cases hcr : compute_results vlog e with
    | none => rw [hcr] at h; simp at h
    | some e₁ =>
      rw [hcr] at h
      simp only [Option.some.injEq, Prod.mk.injEq] at h
      obtain ⟨-, rfl⟩ := h
      rcases compute_results_cases vlog e e₁ hcr with ⟨-, rfl⟩ | ⟨-, -, hds, hcoa, -⟩
      · exact ⟨rfl, rfl⟩
      · exact ⟨hds, hcoa⟩
  · rw [if_neg hc] at h
    simp only [Option.some.injEq, Prod.mk.injEq] at h
    obtain ⟨-, rfl⟩ := h
    exact ⟨rfl, rfl⟩

/-- Witness for C10 at a concrete engine. -/
theorem C10_score_frame_witness :
    (score_document zeroLog (TfIdf.start ℚ true) ["x"]
      = some ([], TfIdf.start ℚ true)) ∧
    ((TfIdf.start ℚ true).dataset = (TfIdf.start ℚ true).dataset ∧
     (TfIdf.start ℚ true).compute_on_add = (TfIdf.start ℚ true).compute_on_add) :=
  ⟨rfl, C10_score_frame zeroLog (TfIdf.start ℚ true) ["x"] [] (TfIdf.start ℚ true) rfl⟩

/-- C8: a failed load — empty path (`path_ok = false`) or a missing,
unreadable or corrupt file (`file = none`) — returns `False` and leaves the
engine's state (dataset and results) unchanged, with no partial payload
installed; a failed export is likewise reported only as a `False` return
value, and export never raises on a dataset free of the zero-division edge
case (the only exception source, which storage failures cannot trigger). -/
theorem C8_storage_failures {V : Type} [LinearOrderedField V] (vlog : V → V)
    (e : TfIdf V) (path_ok : Bool) (file : Option (Payload V))
    (epath edir ewrite incl : Bool) (hds : DatasetOK e.dataset) :
    ((path_ok = false ∨ file = none) → load e path_ok file = (false, e)) ∧
    (∃ b e₁ p, exportData vlog e epath edir ewrite incl = some (b, e₁, p)) ∧
    ((epath = false ∨ edir = false ∨ ewrite = false) →
      ∃ e₁, exportData vlog e epath edir ewrite incl = some (false, e₁, none)) := by
  have hcomp : ∃ e₁, (if e.compute_on_add = false then compute_results vlog e else some e)
      = some e₁ := by
    by_cases hc : e.compute_on_add = false
    · obtain ⟨e₁, hcr⟩ := compute_results_total vlog e hds
      exact ⟨e₁, by rw [if_pos hc, hcr]⟩
    · exact ⟨e, by rw [if_neg hc]⟩
  refine ⟨?_, ?_, ?_⟩
  · rintro (hp | hf)
    · subst hp
      rfl
    · subst hf
      cases path_ok <;> rfl
  · obtain ⟨e₁, hcr⟩ := hcomp
    by_cases hp : epath = false
    · exact ⟨false, e, none, by rw [exportData, if_pos hp]⟩
    · obtain rfl : epath = true := by revert hp; cases epath <;> simp
      by_cases hd : edir = false
      · exact ⟨false, e, none, by rw [exportData, if_neg hp, if_pos hd]⟩
      · obtain rfl : edir = true := by revert hd; cases edir <;> simp
        by_cases hw : ewrite = true
        · subst hw
          exact ⟨true, e₁, _, by rw [exportData_eq vlog e e₁ true incl hcr]; rfl⟩
        · obtain rfl : ewrite = false := by revert hw; cases ewrite <;> simp
          exact ⟨false, e₁, none,
            by rw [exportData_eq vlog e e₁ false incl hcr]; simp⟩
  · obtain ⟨e₁, hcr⟩ := hcomp
    intro hfail
    by_cases hp : epath = false
    · exact ⟨e, by rw [exportData, if_pos hp]⟩
    · obtain rfl : epath = true := by revert hp; cases epath <;> simp
      by_cases hd : edir = false
      · exact ⟨e, by rw [exportData, if_neg hp, if_pos hd]⟩
      · obtain rfl : edir = true := by revert hd; cases edir <;> simp
        have hw : ewrite = false := by
          rcases hfail with h | h | h
          · exact absurd h hp
          · exact absurd h hd
          · exact h
        subst hw
        exact ⟨e₁, by rw [exportData_eq vlog e e₁ false incl hcr]; simp⟩

/-- Witness for C8 at a concrete engine and failing storage flags. -/
theorem C8_storage_failures_witness :
    DatasetOK (TfIdf.start ℚ true).dataset ∧
    ((false = false ∨ (none : Option (Payload ℚ)) = none) →
      load (TfIdf.start ℚ true) false none = (false, TfIdf.start ℚ true)) ∧
    (∃ b e₁ p, exportData zeroLog (TfIdf.start ℚ true) false true true true
      = some (b, e₁, p)) ∧
    ((false = false ∨ true = false ∨ true = false) →
      ∃ e₁, exportData zeroLog (TfIdf.start ℚ true) false true true true
        = some (false, e₁, none)) :=
  ⟨fun p hp => absurd hp (by simp [TfIdf.start]),
    (C8_storage_failures zeroLog (TfIdf.start ℚ true) false none false true true true
      (fun p hp => absurd hp (by simp [TfIdf.start]))).1,
    (C8_storage_failures zeroLog (TfIdf.start ℚ true) false none false true true true
      (fun p hp => absurd hp (by simp [TfIdf.start]))).2.1,
    (C8_storage_failures zeroLog (TfIdf.start ℚ true) false none false true true true
      (fun p hp => absurd hp (by simp [TfIdf.start]))).2.2⟩

/-- C9: a successful export with `include_dataset` true, followed by a
successful load of the produced payload into any (fresh) engine, gives the
loading engine `tf_idf_results` and `dataset` identical to those of the
exporting engine at export time (the state the exporting engine holds when
the payload is built, after its conditional recompute). -/
theorem C9_roundtrip {V : Type} [LinearOrderedField V] (vlog : V → V)
    (e e₁ f : TfIdf V) (p : Payload V)
    (h : exportData vlog e true true true true = some (true, e₁, some p)) :
    load f true (some p) =
      (true, { f with tf_idf_results := e₁.tf_idf_results, dataset := e₁.dataset }) := by
  cases hcr : (if e.compute_on_add = false then compute_results vlog e else some e) with
  | none => rw [exportData_none vlog e true true hcr] at h; simp at h
  | some e₂ =>
    rw [exportData_eq vlog e e₂ true true hcr] at h
    simp at h
    obtain ⟨rfl, rfl⟩ := h
    rfl

/-- Witness for C9 at a concrete exporting engine. -/
theorem C9_roundtrip_witness :
    (exportData zeroLog (TfIdf.start ℚ true) true true true true
      = some (true, TfIdf.start ℚ true,
          some { results := some [], dataset := some [] })) ∧
    load (TfIdf.start ℚ false) true (some { results := some [], dataset := some [] })
      = (true, { TfIdf.start ℚ false with
          tf_idf_results := (TfIdf.start ℚ true).tf_idf_results,
          dataset := (TfIdf.start ℚ true).dataset }) :=
  ⟨rfl, C9_roundtrip zeroLog (TfIdf.start ℚ true) (TfIdf.start ℚ true)
    (TfIdf.start ℚ false) { results := some [], dataset := some [] } rfl⟩

/-- C7 (amended): calling recompute twice without an intervening add leaves
the whole engine state — in particular `tf_idf_results` — bit-for-bit
identical: recompute is a no-op when the early-return guard fires, and
otherwise recomputes every current entry by overwriting into the existing
results dict (not from scratch) with the same values, so an immediately
repeated recompute does not change the engine's observable state. -/
theorem C7_recompute_idempotent {V : Type} [LinearOrderedField V] (vlog : V → V)
    (e e' : TfIdf V) (hwf : EngineWF e) (h : compute_results vlog e = some e') :
    compute_results vlog e' = some e' := by
  rcases compute_results_cases vlog e e' h with ⟨hf, rfl⟩ |
    ⟨hf1, hf2, hds, hcoa, tfs, htf, hres⟩
  · exact h
  · have hnodidf := idf_nodup vlog e.dataset hwf.2.1
    have hnodtf : (dkeys tfs).Nodup := by rw [tf_keys _ tfs htf]; exact hwf.1
    have htwice := computeLoop_twice (idf vlog e.dataset) tfs e.tf_idf_results hnodidf hnodtf
    have htf' : tf e'.dataset = some tfs := by rw [hds]; exact htf
    rw [compute_results_of_true vlog e' tfs hf2 htf']
    congr 1
    refine TfIdf.ext rfl ?_ ?_ rfl
    · show computeLoop (idf vlog e'.dataset) tfs e'.tf_idf_results = e'.tf_idf_results
      rw [hres, hds]
      exact htwice
    · show true = e'.results_up_to_date
      rw [hf2]

/-- Witness for C7 at a concrete well-formed engine. -/
theorem C7_recompute_idempotent_witness :
    (EngineWF (TfIdf.start ℚ true) ∧
      compute_results zeroLog (TfIdf.start ℚ true) = some (TfIdf.start ℚ true)) ∧
    compute_results zeroLog (TfIdf.start ℚ true) = some (TfIdf.start ℚ true) :=
  ⟨⟨⟨List.nodup_nil, by intro p hp; simp [TfIdf.start] at hp,
      ⟨List.nodup_nil, by intro p hp; simp [TfIdf.start] at hp⟩⟩, rfl⟩,
    C7_recompute_idempotent zeroLog (TfIdf.start ℚ true) (TfIdf.start ℚ true)
      ⟨List.nodup_nil, by intro p hp; simp [TfIdf.start] at hp,
        ⟨List.nodup_nil, by intro p hp; simp [TfIdf.start] at hp⟩⟩ rfl⟩

/-- Counterexample to C7 as stated: a recomputation is not "from scratch" —
on an engine whose results dict holds an entry at a key (`zz`) absent from the
dataset, recompute keeps that entry, so the recomputed results differ from the
full fresh recomputation of the dataset. -/
theorem C7_recompute_counterexample :
    compute_results zeroLog
      { dataset := [("d", { nr_terms := 1, term_count := [("a", 1)] })],
        tf_idf_results := [("zz", [("zz", (5 : ℚ))])],
        results_up_to_date := true,
        compute_on_add := true }
    = some
      { dataset := [("d", { nr_terms := 1, term_count := [("a", 1)] })],
        tf_idf_results := [("zz", [("zz", (5 : ℚ))]),
          ("a", [("d", ((1:ℕ):ℚ) / ((1:ℕ):ℚ) * (-1 * zeroLog (((1:ℕ):ℚ) / ((1:ℕ):ℚ))))])],
        results_up_to_date := true,
        compute_on_add := true } ∧
    freshResults zeroLog [("d", { nr_terms := 1, term_count := [("a", 1)] })]
      = some [("a", [("d", ((1:ℕ):ℚ) / ((1:ℕ):ℚ) * (-1 * zeroLog (((1:ℕ):ℚ) / ((1:ℕ):ℚ))))])] ∧
    ([("zz", [("zz", (5 : ℚ))]),
      ("a", [("d", ((1:ℕ):ℚ) / ((1:ℕ):ℚ) * (-1 * zeroLog (((1:ℕ):ℚ) / ((1:ℕ):ℚ))))])]
        : Dict String (Dict String ℚ))
      ≠ [("a", [("d", ((1:ℕ):ℚ) / ((1:ℕ):ℚ) * (-1 * zeroLog (((1:ℕ):ℚ) / ((1:ℕ):ℚ))))])] :=
  ⟨rfl, rfl, fun h => by have hl := congrArg List.length h; simp at hl⟩

/-! Auxiliary facts for the merge invariant over traces of adds. -/

theorem add_document_dataset {V : Type} [LinearOrderedField V] (vlog : V → V)
    (e e₁ : TfIdf V) (name : String) (ts : List String)
    (h : add_document vlog e name ts = some e₁) :
    e₁.dataset = dinsert e.dataset name (mergedDoc e name ts) := by
  rw [add_document_eq] at h
  by_cases hc : e.compute_on_add = true
  · rw [if_pos hc] at h
    rcases compute_results_cases vlog _ e₁ h with ⟨hx, rfl⟩ | ⟨_, _, hds, _, _⟩
    · rfl
    · exact hds
  · rw [if_neg hc] at h
    obtain rfl : addState e name ts = e₁ := by injection h
    rfl

theorem batchesFor_cons (name : String) (b : String × List String)
    (bs : List (String × List String)) :
    batchesFor name (b :: bs)
      = if b.1 = name then b.2 :: batchesFor name bs else batchesFor name bs := by
  by_cases h : b.1 = name <;> simp [batchesFor, List.filter_cons, h]

theorem runAdds_counts {V : Type} [LinearOrderedField V] (vlog : V → V)
    (batches : List (String × List String)) (e₀ e : TfIdf V)
    (h : runAdds vlog e₀ batches = some e) (name : String) :
    (∀ t, dgetD (dgetD e.dataset name new_doc).term_count t 0
      = dgetD (dgetD e₀.dataset name new_doc).term_count t 0
        + ((batchesFor name batches).map (occCount t)).sum) ∧
    (dgetD e.dataset name new_doc).nr_terms
      = (dgetD e₀.dataset name new_doc).nr_terms
        + ((batchesFor name batches).map List.length).sum := by
  induction batches generalizing e₀ with
  | nil =>
    rw [runAdds] at h
    obtain rfl : e₀ = e := by injection h
    simp [batchesFor]
  | cons b bs ih =>
    rw [runAdds] at h
    cases hadd : add_document vlog e₀ b.1 b.2 with
    | none => rw [hadd] at h; simp at h
    | some e₁ =>
      rw [hadd] at h
      obtain ⟨iht, ihn⟩ := ih e₁ h
      have hds := add_document_dataset vlog e₀ e₁ b.1 b.2 hadd
      by_cases hb : b.1 = name
      · subst hb
        have hdoc1 : dgetD e₁.dataset b.1 new_doc = mergedDoc e₀ b.1 b.2 := by
          rw [hds, dgetD_dinsert_self]
        constructor
        · intro t
          rw [iht t, hdoc1, batchesFor_cons, if_pos rfl, List.map_cons, List.sum_cons,
            show (mergedDoc e₀ b.1 b.2).term_count
              = mergeCounts (dgetD e₀.dataset b.1 new_doc).term_count (counter b.2) from rfl,
            mergeCounts_getD, counter_getD]
          omega
        · rw [ihn, hdoc1, batchesFor_cons, if_pos rfl, List.map_cons, List.sum_cons,
            show (mergedDoc e₀ b.1 b.2).nr_terms
              = (dgetD e₀.dataset b.1 new_doc).nr_terms + b.2.length from rfl]
          omega
      · have hdoc1 : dgetD e₁.dataset name new_doc = dgetD e₀.dataset name new_doc := by
          rw [hds, dgetD_dinsert_ne e₀.dataset b.1 name (mergedDoc e₀ b.1 b.2) new_doc hb]
        rw [batchesFor_cons, if_neg hb]
        constructor
        · intro t
          rw [iht t, hdoc1]
        · rw [ihn, hdoc1]

/-- C5: for every document name, after any number of `add_document` calls,
`term_count[t]` equals the total number of occurrences of `t` across the
batches submitted for that name, and `nr_terms` equals the sum of the batch
lengths; moreover the invariant `nr_terms == sum(term_count.values())` holds
for every document of the dataset at all times. -/
theorem C5_merge_invariant {V : Type} [LinearOrderedField V] (vlog : V → V)
    (c : Bool) (batches : List (String × List String)) (e : TfIdf V)
    (h : runAdds vlog (TfIdf.start V c) batches = some e) :
    (∀ name : String,
      (∀ t, dgetD (dgetD e.dataset name new_doc).term_count t 0
        = ((batchesFor name batches).map (occCount t)).sum) ∧
      (dgetD e.dataset name new_doc).nr_terms
        = ((batchesFor name batches).map List.length).sum) ∧
    (∀ name doc, dget? e.dataset name = some doc →
      doc.nr_terms = sumValues doc.term_count) := by
  constructor
  · intro name
    obtain ⟨iht, ihn⟩ := runAdds_counts vlog batches (TfIdf.start V c) e h name
    constructor
    · intro t
      rw [iht t]
      simp [TfIdf.start, dgetD, dget?, new_doc]
    · rw [ihn]
      simp [TfIdf.start, dgetD, dget?, new_doc]
  · intro name doc hdoc
    have hInv := Inv_runAdds vlog _ e batches (Inv_start vlog c) h
    exact (hInv.sums (name, doc) (mem_of_dget?_eq_some _ _ _ hdoc)).1

/-- Witness for C5 at a concrete two-batch trace for one document. -/
theorem C5_merge_invariant_witness :
    (runAdds zeroLog (TfIdf.start ℚ false) [("d", ["a", "b", "a"]), ("d", ["b"])]
      = some
        { dataset := [("d", { nr_terms := 4, term_count := [("a", 2), ("b", 2)] })],
          tf_idf_results := [],
          results_up_to_date := true,
          compute_on_add := false }) ∧
    ((∀ name : String,
      (∀ t, dgetD (dgetD ([("d", { nr_terms := 4, term_count := [("a", 2), ("b", 2)] })]
          : Dict String Doc) name new_doc).term_count t 0
        = ((batchesFor name [("d", ["a", "b", "a"]), ("d", ["b"])]).map (occCount t)).sum) ∧
      (dgetD ([("d", { nr_terms := 4, term_count := [("a", 2), ("b", 2)] })]
          : Dict String Doc) name new_doc).nr_terms
        = ((batchesFor name [("d", ["a", "b", "a"]), ("d", ["b"])]).map List.length).sum) ∧
    (∀ name doc,
      dget? ([("d", { nr_terms := 4, term_count := [("a", 2), ("b", 2)] })]
          : Dict String Doc) name = some doc →
      doc.nr_terms = sumValues doc.term_count)) := by
  refine ⟨by decide, ?_⟩
  have h := C5_merge_invariant zeroLog false [("d", ["a", "b", "a"]), ("d", ["b"])]
    { dataset := [("d", { nr_terms := 4, term_count := [("a", 2), ("b", 2)] })],
      tf_idf_results := [],
      results_up_to_date := true,
      compute_on_add := false } (by decide)
  exact h

/-- C1 (amended): for every sequence of `add_document` calls on a freshly
constructed engine (no `set_compute_on_add` call in between), when
`score_document` reads `tf_idf_results` those results are extensionally equal
to the full TF-IDF recomputation of the current dataset — `score_document`
triggers a recompute first whenever `compute_on_add` is false, and when
`compute_on_add` has been true throughout the results are already current by
construction.  (A `set_compute_on_add` switch from false to true after an add
breaks the original claim — see the counterexample.) -/
theorem C1_score_reads_fresh {V : Type} [LinearOrderedField V] (vlog : V → V)
    (c : Bool) (batches : List (String × List String)) (q : List String) (e : TfIdf V)
    (h : runAdds vlog (TfIdf.start V c) batches = some e) :
    ∃ out e' fr, score_document vlog e q = some (out, e') ∧
      freshResults vlog e.dataset = some fr ∧
      ResultsEquiv e'.tf_idf_results fr := by
  have hInv := Inv_runAdds vlog _ e batches (Inv_start vlog c) h
  by_cases hc : e.compute_on_add = false
  · by_cases hf : e.results_up_to_date = false
    · obtain ⟨hds0, hres0⟩ := hInv.flag_empty hf
      have hcr : (if e.compute_on_add = false then compute_results vlog e else some e)
          = some e := by
        rw [if_pos hc]
        exact compute_results_of_false vlog e hf
      refine ⟨_, e, [], score_document_eq vlog e e q hcr, ?_, ?_⟩
      · rw [hds0]
        rfl
      · rw [hres0]
        intro t d
        rfl
    · have hds_ok := DatasetOK_of_sums e.dataset hInv.sums
      obtain ⟨e₁, hcr⟩ := compute_results_total vlog e hds_ok
      obtain ⟨fr, hfr, -, -, -, hequiv⟩ := compute_results_fresh vlog e e₁
        hInv.wf_ds hInv.wf_docs hInv.wf_res ((Bool.not_eq_false _).mp hf) hcr
      exact ⟨_, e₁, fr, score_document_eq vlog e e₁ q (by rw [if_pos hc]; exact hcr),
        hfr, hequiv hInv.bounded⟩
  · have hc' : e.compute_on_add = true := by revert hc; cases e.compute_on_add <;> simp
    obtain ⟨fr, hfr, hequiv⟩ := hInv.current hc'
    exact ⟨_, e, fr, score_document_eq vlog e e q (by rw [if_neg hc]), hfr, hequiv⟩

/-- Witness for C1 (amended) at the empty trace. -/
theorem C1_score_reads_fresh_witness :
    (runAdds zeroLog (TfIdf.start ℚ true) [] = some (TfIdf.start ℚ true)) ∧
    (∃ out e' fr, score_document zeroLog (TfIdf.start ℚ true) ["x"] = some (out, e') ∧
      freshResults zeroLog (TfIdf.start ℚ true).dataset = some fr ∧
      ResultsEquiv e'.tf_idf_results fr) :=
  ⟨rfl, C1_score_reads_fresh zeroLog true [] ["x"] (TfIdf.start ℚ true) rfl⟩

/-- Counterexample to C1 as stated (over all sequences of `add_document` and
`set_compute_on_add` calls): construct lazily, add a document, switch
`compute_on_add` to true, then score — `score_document` does not recompute,
reads the empty results, and they differ from the full recomputation of the
current dataset at term `a`, document `d`. -/
theorem C1_score_reads_fresh_counterexample :
    run zeroLog (TfIdf.start ℚ false) [Op.addDoc "d" ["a"], Op.setCOA true]
      = some
        { dataset := [("d", { nr_terms := 1, term_count := [("a", 1)] })],
          tf_idf_results := [],
          results_up_to_date := true,
          compute_on_add := true } ∧
    score_document zeroLog
        { dataset := [("d", { nr_terms := 1, term_count := [("a", 1)] })],
          tf_idf_results := [],
          results_up_to_date := true,
          compute_on_add := true } ["a"]
      = some (([] : List (String × ℚ)),
        { dataset := [("d", { nr_terms := 1, term_count := [("a", 1)] })],
          tf_idf_results := [],
          results_up_to_date := true,
          compute_on_add := true }) ∧
    freshResults zeroLog [("d", { nr_terms := 1, term_count := [("a", 1)] })]
      = some [("a", [("d", ((1:ℕ):ℚ) / ((1:ℕ):ℚ) * (-1 * zeroLog (((1:ℕ):ℚ) / ((1:ℕ):ℚ))))])] ∧
    ¬ ResultsEquiv ([] : Dict String (Dict String ℚ))
        [("a", [("d", ((1:ℕ):ℚ) / ((1:ℕ):ℚ) * (-1 * zeroLog (((1:ℕ):ℚ) / ((1:ℕ):ℚ))))])] :=
  ⟨by decide, rfl, rfl, fun hEq => by
    have h1 := hEq "a" "d"
    rw [show lookup2 ([] : Dict String (Dict String ℚ)) "a" "d" = none from rfl,
      show lookup2
        [("a", [("d", ((1:ℕ):ℚ) / ((1:ℕ):ℚ) * (-1 * zeroLog (((1:ℕ):ℚ) / ((1:ℕ):ℚ))))])]
        "a" "d"
        = some (((1:ℕ):ℚ) / ((1:ℕ):ℚ) * (-1 * zeroLog (((1:ℕ):ℚ) / ((1:ℕ):ℚ)))) from rfl] at h1
    exact Option.noConfusion h1⟩

/-- C2 (amended): whenever recompute actually performs a recomputation (the
flag lets it run), the resulting `tf_idf_results` maps every `(term, document)`
pair where the document's `term_count` contains the term to
`TF(term, document) * IDF(term)` — the value of the full fresh recomputation,
which is defined at exactly the present pairs — while at every other pair the
prior entry (e.g. from a previously loaded payload) is left in place, not
removed: the rebuild overwrites into the existing dict rather than replacing
it. -/
theorem C2_recompute_characterization {V : Type} [LinearOrderedField V] (vlog : V → V)
    (e e' : TfIdf V) (hwf : EngineWF e) (hflag : e.results_up_to_date = true)
    (h : compute_results vlog e = some e') :
    ∃ fr, freshResults vlog e.dataset = some fr ∧
      (∀ t d, presentPair e.dataset t d → lookup2 fr t d ≠ none) ∧
      (∀ t d, lookup2 fr t d ≠ none → presentPair e.dataset t d) ∧
      (∀ t d, lookup2 e'.tf_idf_results t d
        = firstSome (lookup2 fr t d) (lookup2 e.tf_idf_results t d)) := by
  obtain ⟨fr, hfr, hoverlay, -, hfrbound, -⟩ :=
    compute_results_fresh vlog e e' hwf.1 hwf.2.1 hwf.2.2 hflag h
  refine ⟨fr, hfr, ?_, hfrbound, hoverlay⟩
  rintro t d ⟨doc, hdd, htt⟩
  rcases compute_results_cases vlog e e' h with ⟨hx, -⟩ | ⟨-, -, -, -, tfs, htf, -⟩
  · rw [hflag] at hx
    cases hx
  · obtain ⟨freqs, tfv, hfq, hft⟩ := present_defined e.dataset tfs htf t d doc hdd htt
    have hidf : t ∈ dkeys (idf vlog e.dataset) :=
      (idf_mem vlog e.dataset t).mpr ⟨(d, doc), mem_of_dget?_eq_some _ _ _ hdd, htt⟩
    have hidf' := (dget?_isSome_iff _ t).mpr hidf
    rw [freshResults, htf] at hfr
    obtain rfl : computeLoop (idf vlog e.dataset) tfs [] = fr := by simpa using hfr
    have hnodtf : (dkeys tfs).Nodup := by rw [tf_keys _ tfs htf]; exact hwf.1
    rw [computeLoop_lookup _ tfs _ t d (idf_nodup vlog e.dataset hwf.2.1) hnodtf]
    cases hi : dget? (idf vlog e.dataset) t with
    | none =>
      rw [hi] at hidf'
      simp at hidf'
    | some idfv =>
      have hb : (dget? tfs d).bind (fun freqs => dget? freqs t) = some tfv := by
        rw [hfq]
        simpa using hft
      rw [hb]
      simp

/-- Witness for C2 (amended) at a concrete engine with a leftover entry and
an empty dataset. -/
theorem C2_recompute_characterization_witness :
    (EngineWF
      { dataset := ([] : Dict String Doc),
        tf_idf_results := [("x", [("y", (5 : ℚ))])],
        results_up_to_date := true,
        compute_on_add := true } ∧
     ({ dataset := ([] : Dict String Doc),
        tf_idf_results := [("x", [("y", (5 : ℚ))])],
        results_up_to_date := true,
        compute_on_add := true } : TfIdf ℚ).results_up_to_date = true ∧
     compute_results zeroLog
        { dataset := ([] : Dict String Doc),
          tf_idf_results := [("x", [("y", (5 : ℚ))])],
          results_up_to_date := true,
          compute_on_add := true }
      = some
        { dataset := ([] : Dict String Doc),
          tf_idf_results := [("x", [("y", (5 : ℚ))])],
          results_up_to_date := true,
          compute_on_add := true }) ∧
    (∃ fr, freshResults zeroLog ([] : Dict String Doc) = some fr ∧
      (∀ t d, presentPair ([] : Dict String Doc) t d → lookup2 fr t d ≠ none) ∧
      (∀ t d, lookup2 fr t d ≠ none → presentPair ([] : Dict String Doc) t d) ∧
      (∀ t d, lookup2 ([("x", [("y", (5 : ℚ))])] : Dict String (Dict String ℚ)) t d
        = firstSome (lookup2 fr t d)
            (lookup2 ([("x", [("y", (5 : ℚ))])] : Dict String (Dict String ℚ)) t d))) := by
  have hwf : EngineWF
      ({ dataset := ([] : Dict String Doc),
         tf_idf_results := [("x", [("y", (5 : ℚ))])],
         results_up_to_date := true,
         compute_on_add := true } : TfIdf ℚ) := by
    refine ⟨List.nodup_nil, ?_, ?_, ?_⟩
    · intro p hp
      simp at hp
    · simp [dkeys]
    · intro p hp
      simp at hp
      rw [hp]
      simp [dkeys]
  exact ⟨⟨hwf, rfl, rfl⟩,
    C2_recompute_characterization zeroLog _ _ hwf rfl rfl⟩

/-- Counterexample to C2 as stated: load a payload carrying results but no
dataset, then add a document — the recompute performed by the add leaves the
loaded entry at `("zz", "zz")` in `tf_idf_results` although `zz` is not a
present pair of the current dataset, so the rebuilt mapping does not contain
exactly the present pairs. -/
theorem C2_recompute_counterexample :
    load (TfIdf.start ℚ true) true
        (some { results := some [("zz", [("zz", (5 : ℚ))])], dataset := none })
      = (true,
        { dataset := ([] : Dict String Doc),
          tf_idf_results := [("zz", [("zz", (5 : ℚ))])],
          results_up_to_date := false,
          compute_on_add := true }) ∧
    add_document zeroLog
        { dataset := ([] : Dict String Doc),
          tf_idf_results := [("zz", [("zz", (5 : ℚ))])],
          results_up_to_date := false,
          compute_on_add := true } "d" ["a"]
      = some
        { dataset := [("d", { nr_terms := 1, term_count := [("a", 1)] })],
          tf_idf_results := [("zz", [("zz", (5 : ℚ))]),
            ("a", [("d", ((1:ℕ):ℚ) / ((1:ℕ):ℚ) * (-1 * zeroLog (((1:ℕ):ℚ) / ((1:ℕ):ℚ))))])],
          results_up_to_date := true,
          compute_on_add := true } ∧
    lookup2 ([("zz", [("zz", (5 : ℚ))]),
        ("a", [("d", ((1:ℕ):ℚ) / ((1:ℕ):ℚ) * (-1 * zeroLog (((1:ℕ):ℚ) / ((1:ℕ):ℚ))))])]
        : Dict String (Dict String ℚ)) "zz" "zz" = some 5 ∧
    ¬ presentPair [("d", { nr_terms := 1, term_count := [("a", 1)] })] "zz" "zz" :=
  ⟨rfl, rfl, rfl,
    fun ⟨doc, hd, _⟩ => Option.noConfusion (show (none : Option Doc) = some doc from hd)⟩

/-- C6 (amended): the document-store add step raises no error for an empty
terms list and yields a document with `nr_terms == 0` (and empty
`term_count`); the Frequency Engine's term-frequency computation over a
dataset containing such a document does NOT fail — the comprehension executes
no division for a document with an empty `term_count` and yields an empty
frequency map — and under the precondition that every document in the dataset
has `nr_terms ≠ 0` the division in the TF computation is always defined. -/
theorem C6_empty_document {V : Type} [LinearOrderedField V] (vlog : V → V)
    (e : TfIdf V) (name : String)
    (hds : DatasetOK e.dataset) (hnew : dget? e.dataset name = none) :
    ∃ e', add_document vlog e name [] = some e' ∧
      dgetD e'.dataset name new_doc = { nr_terms := 0, term_count := [] } ∧
      (∃ tfs, tf (V := V) e'.dataset = some tfs ∧ dget? tfs name = some []) ∧
      (∀ ds : Dict String Doc, (∀ p ∈ ds, p.2.nr_terms ≠ 0) →
        ∃ tfs2, tf (V := V) ds = some tfs2) := by
  have hold : dgetD e.dataset name new_doc = new_doc := by
    rw [dgetD, hnew]
    rfl
  have hmerged : mergedDoc e name [] = { nr_terms := 0, term_count := [] } := by
    rw [mergedDoc, hold]
    rfl
  have hok' : DatasetOK (dinsert e.dataset name (mergedDoc e name [])) := by
    intro p hp
    rcases mem_dinsert _ _ _ p hp with h1 | h1
    · exact hds p h1
    · subst h1
      intro htc
      rw [show (name, mergedDoc e name []).2.term_count = ([] : Dict String Nat) from
        by rw [hmerged]] at htc
      exact absurd rfl htc
  obtain ⟨e', hadd⟩ : ∃ e', add_document vlog e name [] = some e' := by
    rw [add_document_eq]
    by_cases hc : e.compute_on_add = true
    · rw [if_pos hc]
      exact compute_results_total vlog (addState e name []) hok'
    · rw [if_neg hc]
      exact ⟨_, rfl⟩
  have hds' : e'.dataset = dinsert e.dataset name (mergedDoc e name []) :=
    add_document_dataset vlog e e' name [] hadd
  refine ⟨e', hadd, ?_, ?_, ?_⟩
  · rw [hds', dgetD, dget?_dinsert_self]
    exact hmerged
  · have hok'' : DatasetOK e'.dataset := by
      rw [hds']
      exact hok'
    obtain ⟨tfs, htf⟩ := tf_some_of_ok (V := V) e'.dataset hok''
    refine ⟨tfs, htf, ?_⟩
    rw [tf_get?_eq e'.dataset tfs htf name, hds', dget?_dinsert_self, hmerged]
    rfl
  · intro ds hnr
    exact tf_some_of_ok (V := V) ds (fun p hp _ => hnr p hp)

/-- Witness for C6 (amended) at a fresh engine. -/
theorem C6_empty_document_witness :
    (DatasetOK (TfIdf.start ℚ true).dataset ∧
     dget? (TfIdf.start ℚ true).dataset "d" = none) ∧
    (∃ e', add_document zeroLog (TfIdf.start ℚ true) "d" [] = some e' ∧
      dgetD e'.dataset "d" new_doc = { nr_terms := 0, term_count := [] } ∧
      (∃ tfs, tf (V := ℚ) e'.dataset = some tfs ∧ dget? tfs "d" = some []) ∧
      (∀ ds : Dict String Doc, (∀ p ∈ ds, p.2.nr_terms ≠ 0) →
        ∃ tfs2, tf (V := ℚ) ds = some tfs2)) :=
  ⟨⟨fun p hp => absurd hp (by simp [TfIdf.start]), rfl⟩,
    C6_empty_document zeroLog (TfIdf.start ℚ true) "d"
      (fun p hp => absurd hp (by simp [TfIdf.start])) rfl⟩

/-- Counterexample to C6 as stated: adding the empty batch for a fresh name
succeeds and yields a document with `nr_terms == 0` — but the term-frequency
computation over the dataset containing that document does not fail with a
division by zero: it succeeds, producing an empty frequency map for that
document (the comprehension never divides). -/
theorem C6_empty_document_counterexample :
    runAdds zeroLog (TfIdf.start ℚ true) [("d", [])]
      = some
        { dataset := [("d", { nr_terms := 0, term_count := [] })],
          tf_idf_results := [],
          results_up_to_date := true,
          compute_on_add := true } ∧
    tf (V := ℚ) [("d", { nr_terms := 0, term_count := [] })] = some [("d", [])] :=
  ⟨by decide, by decide⟩

/-! ### Sortedness and stability of the final sort -/

section SortLemmas

variable {V : Type} [LinearOrderedField V]

theorem filter_orderedInsert_byScore (v : V) (p : String × V) (l : List (String × V)) :
    (List.orderedInsert byScore p l).filter (fun q => decide (q.2 = v))
      = if p.2 = v then p :: l.filter (fun q => decide (q.2 = v))
        else l.filter (fun q => decide (q.2 = v)) := by
  induction l with
  | nil =>
    by_cases h : p.2 = v <;> simp [List.orderedInsert, List.filter_cons, h]
  | cons x l ih =>
    rw [List.orderedInsert]
    by_cases hr : byScore p x
    · rw [if_pos hr]
      by_cases h : p.2 = v <;> simp [List.filter_cons, h]
    · rw [if_neg hr]
      have hr' : ¬ (x.2 ≤ p.2) := hr
      have hx2 : p.2 < x.2 := not_le.mp hr'
      by_cases h : p.2 = v
      · have hxv : ¬ x.2 = v := by
          intro hxv
          rw [h] at hx2
          rw [hxv] at hx2
          exact lt_irrefl v hx2
        simp [List.filter_cons, hxv, ih, h]
      · simp [List.filter_cons, ih, h]

theorem filter_insertionSort_byScore (v : V) (l : List (String × V)) :
    (List.insertionSort byScore l).filter (fun q => decide (q.2 = v))
      = l.filter (fun q => decide (q.2 = v)) := by
  induction l with
  | nil => rfl
  | cons p l ih =>
    rw [List.insertionSort, filter_orderedInsert_byScore, List.filter_cons]
    by_cases h : p.2 = v <;> simp [h, ih]

theorem sorted_insertionSort_byScore (l : List (String × V)) :
    (List.insertionSort byScore l).Sorted byScore := by
  haveI h1 : IsTotal (String × V) byScore := ⟨fun a b => le_total b.2 a.2⟩
  haveI h2 : IsTrans (String × V) byScore := ⟨fun a b c hab hbc => le_trans hbc hab⟩
  exact List.sorted_insertionSort byScore l

end SortLemmas

/-- C4: `score_document` returns the `(document_name, score)` pairs sorted by
score descending using a stable sort: the output is a permutation of the
accumulated `doc_sums`, it is sorted under the reflexive descending order
`byScore`, and for every score value the pairs carrying that score appear in
exactly the relative order in which they were first inserted into `doc_sums`;
consequently scoring the same query against the same engine state twice
yields identical ordered results, including tie order. -/
theorem C4_sorted_stable {V : Type} [LinearOrderedField V] (vlog : V → V)
    (e : TfIdf V) (q : List String) (out : List (String × V)) (e' : TfIdf V)
    (h : score_document vlog e q = some (out, e')) :
    out.Sorted byScore ∧
    out.Perm (doc_sums e' (counter q)) ∧
    (∀ v : V, out.filter (fun p => decide (p.2 = v))
      = (doc_sums e' (counter q)).filter (fun p => decide (p.2 = v))) ∧
    (∀ out₂ e₂, score_document vlog e q = some (out₂, e₂) → out₂ = out ∧ e₂ = e') := by
  have hout : out = List.insertionSort byScore (doc_sums e' (counter q)) := by
    rw [score_document] at h
    cases hcr : (if e.compute_on_add = false then compute_results vlog e else some e) with
    | none => rw [hcr] at h; simp at h
    | some e₁ =>
      rw [hcr] at h
      simp only [Option.some.injEq, Prod.mk.injEq] at h
      obtain ⟨h1, rfl⟩ := h
      rw [← h1]
  subst hout
  refine ⟨sorted_insertionSort_byScore _, List.perm_insertionSort byScore _,
    fun v => filter_insertionSort_byScore v _, ?_⟩
  intro out₂ e₂ h₂
  rw [h] at h₂
  simp only [Option.some.injEq, Prod.mk.injEq] at h₂
  exact ⟨h₂.1.symm, h₂.2.symm⟩

/-- Witness for C4 at a concrete engine with precomputed results. -/
theorem C4_sorted_stable_witness :
    (score_document zeroLog
        { dataset := [],
          tf_idf_results := [("t", [("d1", (7 : ℚ))])],
          results_up_to_date := true,
          compute_on_add := true } ["t"]
      = some ([("d1", (0 : ℚ) + ((1:ℕ):ℚ) * 7)],
        { dataset := [],
          tf_idf_results := [("t", [("d1", (7 : ℚ))])],
          results_up_to_date := true,
          compute_on_add := true })) ∧
    (([("d1", (0 : ℚ) + ((1:ℕ):ℚ) * 7)] : List (String × ℚ)).Sorted byScore ∧
     ([("d1", (0 : ℚ) + ((1:ℕ):ℚ) * 7)] : List (String × ℚ)).Perm
       (doc_sums
         { dataset := [],
           tf_idf_results := [("t", [("d1", (7 : ℚ))])],
           results_up_to_date := true,
           compute_on_add := true } (counter ["t"])) ∧
     (∀ v : ℚ, ([("d1", (0 : ℚ) + ((1:ℕ):ℚ) * 7)] : List (String × ℚ)).filter
         (fun p => decide (p.2 = v))
       = (doc_sums
           { dataset := [],
             tf_idf_results := [("t", [("d1", (7 : ℚ))])],
             results_up_to_date := true,
             compute_on_add := true } (counter ["t"])).filter (fun p => decide (p.2 = v))) ∧
     (∀ out₂ e₂, score_document zeroLog
         { dataset := [],
           tf_idf_results := [("t", [("d1", (7 : ℚ))])],
           results_up_to_date := true,
           compute_on_add := true } ["t"] = some (out₂, e₂) →
       out₂ = [("d1", (0 : ℚ) + ((1:ℕ):ℚ) * 7)] ∧
       e₂ = { dataset := [],
              tf_idf_results := [("t", [("d1", (7 : ℚ))])],
              results_up_to_date := true,
              compute_on_add := true })) :=
  ⟨rfl, C4_sorted_stable zeroLog
    { dataset := [],
      tf_idf_results := [("t", [("d1", (7 : ℚ))])],
      results_up_to_date := true,
      compute_on_add := true } ["t"]
    [("d1", (0 : ℚ) + ((1:ℕ):ℚ) * 7)]
    { dataset := [],
      tf_idf_results := [("t", [("d1", (7 : ℚ))])],
      results_up_to_date := true,
      compute_on_add := true } rfl⟩

/-! ### The worked example of the spec (C3) -/

/-- The engine state after adding `doc1 = [a,a,b]` and `doc2 = [a,c]` with
eager recomputation. -/
theorem tfidf_example_trace :
    runAdds Real.log (TfIdf.start ℝ true) [("doc1", ["a", "a", "b"]), ("doc2", ["a", "c"])]
      = some
      (⟨[("doc1", ⟨3, [("a", 2), ("b", 1)]⟩), ("doc2", ⟨2, [("a", 1), ("c", 1)]⟩)],
        [("a", [("doc1", ((2:ℕ):ℝ) / ((3:ℕ):ℝ) * (-1 * Real.log (((2:ℕ):ℝ) / ((2:ℕ):ℝ)))),
                ("doc2", ((1:ℕ):ℝ) / ((2:ℕ):ℝ) * (-1 * Real.log (((2:ℕ):ℝ) / ((2:ℕ):ℝ))))]),
         ("b", [("doc1", ((1:ℕ):ℝ) / ((3:ℕ):ℝ) * (-1 * Real.log (((1:ℕ):ℝ) / ((2:ℕ):ℝ))))]),
         ("c", [("doc2", ((1:ℕ):ℝ) / ((2:ℕ):ℝ) * (-1 * Real.log (((1:ℕ):ℝ) / ((2:ℕ):ℝ))))])],
        true, true⟩ : TfIdf ℝ) := rfl

/-- Scoring `[b]` on the worked example: a single pair for `doc1` with value
`TF(b, doc1) * IDF(b) = (1/3) * ln 2`. -/
theorem tfidf_example_score_b :
    score_document Real.log
      (⟨[("doc1", ⟨3, [("a", 2), ("b", 1)]⟩), ("doc2", ⟨2, [("a", 1), ("c", 1)]⟩)],
        [("a", [("doc1", ((2:ℕ):ℝ) / ((3:ℕ):ℝ) * (-1 * Real.log (((2:ℕ):ℝ) / ((2:ℕ):ℝ)))),
                ("doc2", ((1:ℕ):ℝ) / ((2:ℕ):ℝ) * (-1 * Real.log (((2:ℕ):ℝ) / ((2:ℕ):ℝ))))]),
         ("b", [("doc1", ((1:ℕ):ℝ) / ((3:ℕ):ℝ) * (-1 * Real.log (((1:ℕ):ℝ) / ((2:ℕ):ℝ))))]),
         ("c", [("doc2", ((1:ℕ):ℝ) / ((2:ℕ):ℝ) * (-1 * Real.log (((1:ℕ):ℝ) / ((2:ℕ):ℝ))))])],
        true, true⟩ : TfIdf ℝ) ["b"]
      = some ([("doc1", Real.log 2 / 3)],
      (⟨[("doc1", ⟨3, [("a", 2), ("b", 1)]⟩), ("doc2", ⟨2, [("a", 1), ("c", 1)]⟩)],
        [("a", [("doc1", ((2:ℕ):ℝ) / ((3:ℕ):ℝ) * (-1 * Real.log (((2:ℕ):ℝ) / ((2:ℕ):ℝ)))),
                ("doc2", ((1:ℕ):ℝ) / ((2:ℕ):ℝ) * (-1 * Real.log (((2:ℕ):ℝ) / ((2:ℕ):ℝ))))]),
         ("b", [("doc1", ((1:ℕ):ℝ) / ((3:ℕ):ℝ) * (-1 * Real.log (((1:ℕ):ℝ) / ((2:ℕ):ℝ))))]),
         ("c", [("doc2", ((1:ℕ):ℝ) / ((2:ℕ):ℝ) * (-1 * Real.log (((1:ℕ):ℝ) / ((2:ℕ):ℝ))))])],
        true, true⟩ : TfIdf ℝ)) := by
  have hraw : score_document Real.log
      (⟨[("doc1", ⟨3, [("a", 2), ("b", 1)]⟩), ("doc2", ⟨2, [("a", 1), ("c", 1)]⟩)],
        [("a", [("doc1", ((2:ℕ):ℝ) / ((3:ℕ):ℝ) * (-1 * Real.log (((2:ℕ):ℝ) / ((2:ℕ):ℝ)))),
                ("doc2", ((1:ℕ):ℝ) / ((2:ℕ):ℝ) * (-1 * Real.log (((2:ℕ):ℝ) / ((2:ℕ):ℝ))))]),
         ("b", [("doc1", ((1:ℕ):ℝ) / ((3:ℕ):ℝ) * (-1 * Real.log (((1:ℕ):ℝ) / ((2:ℕ):ℝ))))]),
         ("c", [("doc2", ((1:ℕ):ℝ) / ((2:ℕ):ℝ) * (-1 * Real.log (((1:ℕ):ℝ) / ((2:ℕ):ℝ))))])],
        true, true⟩ : TfIdf ℝ) ["b"]
      = some ([("doc1", (0:ℝ) + ((1:ℕ):ℝ) * (((1:ℕ):ℝ) / ((3:ℕ):ℝ) * (-1 * Real.log (((1:ℕ):ℝ) / ((2:ℕ):ℝ)))))],
      (⟨[("doc1", ⟨3, [("a", 2), ("b", 1)]⟩), ("doc2", ⟨2, [("a", 1), ("c", 1)]⟩)],
        [("a", [("doc1", ((2:ℕ):ℝ) / ((3:ℕ):ℝ) * (-1 * Real.log (((2:ℕ):ℝ) / ((2:ℕ):ℝ)))),
                ("doc2", ((1:ℕ):ℝ) / ((2:ℕ):ℝ) * (-1 * Real.log (((2:ℕ):ℝ) / ((2:ℕ):ℝ))))]),
         ("b", [("doc1", ((1:ℕ):ℝ) / ((3:ℕ):ℝ) * (-1 * Real.log (((1:ℕ):ℝ) / ((2:ℕ):ℝ))))]),
         ("c", [("doc2", ((1:ℕ):ℝ) / ((2:ℕ):ℝ) * (-1 * Real.log (((1:ℕ):ℝ) / ((2:ℕ):ℝ))))])],
        true, true⟩ : TfIdf ℝ)) := rfl
  rw [hraw, show (0:ℝ) + ((1:ℕ):ℝ) * (((1:ℕ):ℝ) / ((3:ℕ):ℝ) * (-1 * Real.log (((1:ℕ):ℝ) / ((2:ℕ):ℝ)))) = Real.log 2 / 3 from by
    push_cast
    rw [Real.log_div one_ne_zero two_ne_zero, Real.log_one]
    ring]

/-- Scoring `[a]` on the worked example: explicit zero entries for both
documents, in insertion order. -/
theorem tfidf_example_score_a :
    score_document Real.log
      (⟨[("doc1", ⟨3, [("a", 2), ("b", 1)]⟩), ("doc2", ⟨2, [("a", 1), ("c", 1)]⟩)],
        [("a", [("doc1", ((2:ℕ):ℝ) / ((3:ℕ):ℝ) * (-1 * Real.log (((2:ℕ):ℝ) / ((2:ℕ):ℝ)))),
                ("doc2", ((1:ℕ):ℝ) / ((2:ℕ):ℝ) * (-1 * Real.log (((2:ℕ):ℝ) / ((2:ℕ):ℝ))))]),
         ("b", [("doc1", ((1:ℕ):ℝ) / ((3:ℕ):ℝ) * (-1 * Real.log (((1:ℕ):ℝ) / ((2:ℕ):ℝ))))]),
         ("c", [("doc2", ((1:ℕ):ℝ) / ((2:ℕ):ℝ) * (-1 * Real.log (((1:ℕ):ℝ) / ((2:ℕ):ℝ))))])],
        true, true⟩ : TfIdf ℝ) ["a"]
      = some ([("doc1", (0:ℝ)), ("doc2", (0:ℝ))],
      (⟨[("doc1", ⟨3, [("a", 2), ("b", 1)]⟩), ("doc2", ⟨2, [("a", 1), ("c", 1)]⟩)],
        [("a", [("doc1", ((2:ℕ):ℝ) / ((3:ℕ):ℝ) * (-1 * Real.log (((2:ℕ):ℝ) / ((2:ℕ):ℝ)))),
                ("doc2", ((1:ℕ):ℝ) / ((2:ℕ):ℝ) * (-1 * Real.log (((2:ℕ):ℝ) / ((2:ℕ):ℝ))))]),
         ("b", [("doc1", ((1:ℕ):ℝ) / ((3:ℕ):ℝ) * (-1 * Real.log (((1:ℕ):ℝ) / ((2:ℕ):ℝ))))]),
         ("c", [("doc2", ((1:ℕ):ℝ) / ((2:ℕ):ℝ) * (-1 * Real.log (((1:ℕ):ℝ) / ((2:ℕ):ℝ))))])],
        true, true⟩ : TfIdf ℝ)) := by
  have hsc := score_document_eq Real.log
    (⟨[("doc1", ⟨3, [("a", 2), ("b", 1)]⟩), ("doc2", ⟨2, [("a", 1), ("c", 1)]⟩)],
        [("a", [("doc1", ((2:ℕ):ℝ) / ((3:ℕ):ℝ) * (-1 * Real.log (((2:ℕ):ℝ) / ((2:ℕ):ℝ)))),
                ("doc2", ((1:ℕ):ℝ) / ((2:ℕ):ℝ) * (-1 * Real.log (((2:ℕ):ℝ) / ((2:ℕ):ℝ))))]),
         ("b", [("doc1", ((1:ℕ):ℝ) / ((3:ℕ):ℝ) * (-1 * Real.log (((1:ℕ):ℝ) / ((2:ℕ):ℝ))))]),
         ("c", [("doc2", ((1:ℕ):ℝ) / ((2:ℕ):ℝ) * (-1 * Real.log (((1:ℕ):ℝ) / ((2:ℕ):ℝ))))])],
        true, true⟩ : TfIdf ℝ)
    (⟨[("doc1", ⟨3, [("a", 2), ("b", 1)]⟩), ("doc2", ⟨2, [("a", 1), ("c", 1)]⟩)],
        [("a", [("doc1", ((2:ℕ):ℝ) / ((3:ℕ):ℝ) * (-1 * Real.log (((2:ℕ):ℝ) / ((2:ℕ):ℝ)))),
                ("doc2", ((1:ℕ):ℝ) / ((2:ℕ):ℝ) * (-1 * Real.log (((2:ℕ):ℝ) / ((2:ℕ):ℝ))))]),
         ("b", [("doc1", ((1:ℕ):ℝ) / ((3:ℕ):ℝ) * (-1 * Real.log (((1:ℕ):ℝ) / ((2:ℕ):ℝ))))]),
         ("c", [("doc2", ((1:ℕ):ℝ) / ((2:ℕ):ℝ) * (-1 * Real.log (((1:ℕ):ℝ) / ((2:ℕ):ℝ))))])],
        true, true⟩ : TfIdf ℝ) ["a"] rfl
  have hds : doc_sums
      (⟨[("doc1", ⟨3, [("a", 2), ("b", 1)]⟩), ("doc2", ⟨2, [("a", 1), ("c", 1)]⟩)],
        [("a", [("doc1", ((2:ℕ):ℝ) / ((3:ℕ):ℝ) * (-1 * Real.log (((2:ℕ):ℝ) / ((2:ℕ):ℝ)))),
                ("doc2", ((1:ℕ):ℝ) / ((2:ℕ):ℝ) * (-1 * Real.log (((2:ℕ):ℝ) / ((2:ℕ):ℝ))))]),
         ("b", [("doc1", ((1:ℕ):ℝ) / ((3:ℕ):ℝ) * (-1 * Real.log (((1:ℕ):ℝ) / ((2:ℕ):ℝ))))]),
         ("c", [("doc2", ((1:ℕ):ℝ) / ((2:ℕ):ℝ) * (-1 * Real.log (((1:ℕ):ℝ) / ((2:ℕ):ℝ))))])],
        true, true⟩ : TfIdf ℝ) (counter ["a"])
      = [("doc1", (0:ℝ) + ((1:ℕ):ℝ) * (((2:ℕ):ℝ) / ((3:ℕ):ℝ) * (-1 * Real.log (((2:ℕ):ℝ) / ((2:ℕ):ℝ))))),
         ("doc2", (0:ℝ) + ((1:ℕ):ℝ) * (((1:ℕ):ℝ) / ((2:ℕ):ℝ) * (-1 * Real.log (((2:ℕ):ℝ) / ((2:ℕ):ℝ)))))] := rfl
  have hx1 : (0:ℝ) + ((1:ℕ):ℝ) * (((2:ℕ):ℝ) / ((3:ℕ):ℝ) * (-1 * Real.log (((2:ℕ):ℝ) / ((2:ℕ):ℝ)))) = 0 := by
    rw [show ((2:ℕ):ℝ) / ((2:ℕ):ℝ) = 1 by norm_num, Real.log_one]
    ring
  have hx2 : (0:ℝ) + ((1:ℕ):ℝ) * (((1:ℕ):ℝ) / ((2:ℕ):ℝ) * (-1 * Real.log (((2:ℕ):ℝ) / ((2:ℕ):ℝ)))) = 0 := by
    rw [show ((2:ℕ):ℝ) / ((2:ℕ):ℝ) = 1 by norm_num, Real.log_one]
    ring
  rw [hx1, hx2] at hds
  rw [hds] at hsc
  rw [show List.insertionSort byScore [("doc1", (0:ℝ)), ("doc2", (0:ℝ))]
      = List.orderedInsert byScore ("doc1", (0:ℝ)) [("doc2", (0:ℝ))] from rfl,
    List.orderedInsert,
    if_pos (show byScore ("doc1", (0:ℝ)) ("doc2", (0:ℝ)) from le_refl 0)] at hsc
  exact hsc

/-- C3 (amended): in the worked example — doc1 = [a,a,b], doc2 = [a,c], with
results computed — `score_document([b])` returns exactly the single pair
`(doc1, TF(b,doc1) * IDF(b)) = (doc1, ln 2 / 3)`, approximately
`(doc1, 0.231)`; and `score_document([a])` returns explicit zero entries
`[(doc1, 0.0), (doc2, 0.0)]` — zero contributions still create `doc_sums`
entries, so the result is not the empty list. -/
theorem C3_worked_example :
    ∃ e e₁ e₂, runAdds Real.log (TfIdf.start ℝ true)
        [("doc1", ["a", "a", "b"]), ("doc2", ["a", "c"])] = some e ∧
      score_document Real.log e ["b"] = some ([("doc1", Real.log 2 / 3)], e₁) ∧
      score_document Real.log e ["a"]
        = some ([("doc1", (0:ℝ)), ("doc2", (0:ℝ))], e₂) ∧
      |Real.log 2 / 3 - 0.231| < 1 / 500 := by
  refine ⟨_, _, _, tfidf_example_trace, tfidf_example_score_b, tfidf_example_score_a, ?_⟩
  have h1 := Real.log_two_gt_d9
  have h2 := Real.log_two_lt_d9
  rw [abs_lt]
  constructor <;> nlinarith

/-- Counterexample to C3 as stated: in the worked example, scoring `[a]` does
not return the empty list — zero contributions produce explicit zero entries
for both documents. -/
theorem C3_worked_example_counterexample :
    runAdds Real.log (TfIdf.start ℝ true) [("doc1", ["a", "a", "b"]), ("doc2", ["a", "c"])]
      = some
      (⟨[("doc1", ⟨3, [("a", 2), ("b", 1)]⟩), ("doc2", ⟨2, [("a", 1), ("c", 1)]⟩)],
        [("a", [("doc1", ((2:ℕ):ℝ) / ((3:ℕ):ℝ) * (-1 * Real.log (((2:ℕ):ℝ) / ((2:ℕ):ℝ)))),
                ("doc2", ((1:ℕ):ℝ) / ((2:ℕ):ℝ) * (-1 * Real.log (((2:ℕ):ℝ) / ((2:ℕ):ℝ))))]),
         ("b", [("doc1", ((1:ℕ):ℝ) / ((3:ℕ):ℝ) * (-1 * Real.log (((1:ℕ):ℝ) / ((2:ℕ):ℝ))))]),
         ("c", [("doc2", ((1:ℕ):ℝ) / ((2:ℕ):ℝ) * (-1 * Real.log (((1:ℕ):ℝ) / ((2:ℕ):ℝ))))])],
        true, true⟩ : TfIdf ℝ) ∧
    score_document Real.log
      (⟨[("doc1", ⟨3, [("a", 2), ("b", 1)]⟩), ("doc2", ⟨2, [("a", 1), ("c", 1)]⟩)],
        [("a", [("doc1", ((2:ℕ):ℝ) / ((3:ℕ):ℝ) * (-1 * Real.log (((2:ℕ):ℝ) / ((2:ℕ):ℝ)))),
                ("doc2", ((1:ℕ):ℝ) / ((2:ℕ):ℝ) * (-1 * Real.log (((2:ℕ):ℝ) / ((2:ℕ):ℝ))))]),
         ("b", [("doc1", ((1:ℕ):ℝ) / ((3:ℕ):ℝ) * (-1 * Real.log (((1:ℕ):ℝ) / ((2:ℕ):ℝ))))]),
         ("c", [("doc2", ((1:ℕ):ℝ) / ((2:ℕ):ℝ) * (-1 * Real.log (((1:ℕ):ℝ) / ((2:ℕ):ℝ))))])],
        true, true⟩ : TfIdf ℝ) ["a"]
      = some ([("doc1", (0:ℝ)), ("doc2", (0:ℝ))],
      (⟨[("doc1", ⟨3, [("a", 2), ("b", 1)]⟩), ("doc2", ⟨2, [("a", 1), ("c", 1)]⟩)],
        [("a", [("doc1", ((2:ℕ):ℝ) / ((3:ℕ):ℝ) * (-1 * Real.log (((2:ℕ):ℝ) / ((2:ℕ):ℝ)))),
                ("doc2", ((1:ℕ):ℝ) / ((2:ℕ):ℝ) * (-1 * Real.log (((2:ℕ):ℝ) / ((2:ℕ):ℝ))))]),
         ("b", [("doc1", ((1:ℕ):ℝ) / ((3:ℕ):ℝ) * (-1 * Real.log (((1:ℕ):ℝ) / ((2:ℕ):ℝ))))]),
         ("c", [("doc2", ((1:ℕ):ℝ) / ((2:ℕ):ℝ) * (-1 * Real.log (((1:ℕ):ℝ) / ((2:ℕ):ℝ))))])],
        true, true⟩ : TfIdf ℝ)) ∧
    ([("doc1", (0:ℝ)), ("doc2", (0:ℝ))] : List (String × ℝ)) ≠ [] :=
  ⟨tfidf_example_trace, tfidf_example_score_a, by simp⟩

end TfIdfSpec
